import Mathlib

/-!
Verification of the `bio-misc-py` command-line utilities.

The Python sources are shallowly embedded below.  Conventions used
throughout:

* a tab-separated line that has already been `rstrip`-ped and split on
  tabs is a `List String` of its fields;
* Python `float` values are idealised as exact rationals, represented by
  the executable pair type `PyF` (IEEE rounding, `inf` and `nan` are
  outside the model, and `float(...)` parsing is modelled by `pyFloat?`);
* fallible Python code (uncaught exceptions, `sys.exit`) is modelled
  with `Except PyErr`;
* `fields[i]` is modelled by `List.getD i ""`; theorems carry
  rectangularity hypotheses so that they speak only about inputs on
  which the embedding and the Python indexing agree.
-/

/-- The Python exceptions the embedded programs can raise. -/
inductive PyErr where
  | systemExit (msg : String)
  | keyError (msg : String)
  | zeroDivision
  | valueError
  | indexError
deriving DecidableEq, Repr

/-- Sequential `Except`-valued map over a list: the first error aborts,
exactly as an exception aborts a Python loop or comprehension. -/
def mapME {α β ε : Type} (f : α → Except ε β) : List α → Except ε (List β)
  | [] => .ok []
  | x :: xs =>
    match f x with
    | .error e => .error e
    | .ok y =>
      match mapME f xs with
      | .error e => .error e
      | .ok ys => .ok (y :: ys)

/-- Sequential `Except`-valued fold over a list: the first error aborts. -/
def foldME {σ α ε : Type} (f : σ → α → Except ε σ) : σ → List α → Except ε σ
  | s, [] => .ok s
  | s, x :: xs =>
    match f s x with
    | .error e => .error e
    | .ok s2 => foldME f s2 xs

theorem mapME_ok_length {α β ε : Type} (f : α → Except ε β) (l : List α) (ys : List β)
    (h : mapME f l = .ok ys) : ys.length = l.length := by
  induction l generalizing ys with
  | nil => simp [mapME] at h; simp [← h]
  | cons x xs ih =>
    simp only [mapME] at h
    cases hx : f x with
    | error e => rw [hx] at h; exact absurd h (by simp)
    | ok y =>
      rw [hx] at h
      cases hxs : mapME f xs with
      | error e => rw [hxs] at h; exact absurd h (by simp)
      | ok ys' =>
        rw [hxs] at h
        cases h
        simp [ih ys' hxs]

theorem mapME_ok_getD {α β ε : Type} (f : α → Except ε β) (l : List α) (ys : List β)
    (h : mapME f l = .ok ys) (t : ℕ) (ht : t < l.length) (da : α) (db : β) :
    f (l.getD t da) = .ok (ys.getD t db) := by
  induction l generalizing ys t with
  | nil => simp at ht
  | cons x xs ih =>
    simp only [mapME] at h
    cases hx : f x with
    | error e => rw [hx] at h; exact absurd h (by simp)
    | ok y =>
      rw [hx] at h
      cases hxs : mapME f xs with
      | error e => rw [hxs] at h; exact absurd h (by simp)
      | ok ys' =>
        rw [hxs] at h
        cases h
        cases t with
        | zero => simpa using hx
        | succ t' =>
          simp only [List.getD_cons_succ]
          exact ih ys' hxs t' (by simpa using ht)

theorem mapME_error_mem {α β ε : Type} (f : α → Except ε β) (l : List α) (e : ε)
    (h : mapME f l = .error e) : ∃ x ∈ l, f x = .error e := by
  induction l with
  | nil => simp [mapME] at h
  | cons x xs ih =>
    simp only [mapME] at h
    cases hx : f x with
    | error e' =>
      rw [hx] at h
      cases h
      exact ⟨x, by simp, hx⟩
    | ok y =>
      rw [hx] at h
      cases hxs : mapME f xs with
      | error e' =>
        rw [hxs] at h
        cases h
        obtain ⟨z, hz, hfz⟩ := ih hxs
        exact ⟨z, by simp [hz], hfz⟩
      | ok ys => rw [hxs] at h; exact absurd h (by simp)

theorem mapME_ok_of_forall {α β ε : Type} (f : α → Except ε β) (l : List α)
    (h : ∀ x ∈ l, ∃ y, f x = .ok y) : ∃ ys, mapME f l = .ok ys := by
  induction l with
  | nil => exact ⟨[], rfl⟩
  | cons x xs ih =>
    obtain ⟨y, hy⟩ := h x (by simp)
    obtain ⟨ys, hys⟩ := ih (fun z hz => h z (by simp [hz]))
    exact ⟨y :: ys, by simp [mapME, hy, hys]⟩

theorem mapME_mem_ok {α β ε : Type} (f : α → Except ε β) (l : List α) (ys : List β)
    (h : mapME f l = .ok ys) (x : α) (hx : x ∈ l) : ∃ y, f x = .ok y := by
  induction l generalizing ys with
  | nil => simp at hx
  | cons z zs ih =>
    simp only [mapME] at h
    cases hz : f z with
    | error e => rw [hz] at h; exact absurd h (by simp)
    | ok y =>
      rw [hz] at h
      cases hzs : mapME f zs with
      | error e => rw [hzs] at h; exact absurd h (by simp)
      | ok ys' =>
        rcases List.mem_cons.mp hx with hxz | hxzs
        · exact ⟨y, hxz ▸ hz⟩
        · exact ih ys' hzs hxzs

/-! ### Character-level models of the Python `str` methods used -/

/-- `listStartsWith l p` : does `l` start with prefix `p`? -/
def listStartsWith {α : Type} [DecidableEq α] : List α → List α → Bool
  | _, [] => true
  | [], _ :: _ => false
  | x :: xs, p :: ps => if x = p then listStartsWith xs ps else false

/-- Model of Python `s.startswith(p)`. -/
def strStartsWith (s p : String) : Bool := listStartsWith s.data p.data

/-- Fuel-driven worker for `strSplitOn` (the fuel is an upper bound on the
number of characters still to be consumed, so it never runs out). -/
def chSplitGo (sep : List Char) : ℕ → List Char → List Char → List (List Char)
  | 0, rest, acc => [acc.reverse ++ rest]
  | _ + 1, [], acc => [acc.reverse]
  | fuel + 1, c :: cs, acc =>
    if listStartsWith (c :: cs) sep then
      acc.reverse :: chSplitGo sep fuel ((c :: cs).drop sep.length) []
    else
      chSplitGo sep fuel cs (c :: acc)

/-- Model of Python `s.split(sep)` for a non-empty separator. -/
def strSplitOn (sep s : String) : List String :=
  if sep.data = [] then [s]
  else (chSplitGo sep.data (s.data.length + 1) s.data []).map String.mk

/-- Model of Python `s.rstrip()`. -/
def pyRstrip (s : String) : String :=
  String.mk ((s.data.reverse.dropWhile Char.isWhitespace).reverse)

/-- Model of Python `s.strip()` (used by `float(...)` / `int(...)`). -/
def pyStrip (cs : List Char) : List Char :=
  ((cs.dropWhile Char.isWhitespace).reverse.dropWhile Char.isWhitespace).reverse

/-! ### A stable insertion sort modelling Python `sorted` -/

/-- Insert `x` after every element strictly below it; stability places `x`
before existing elements equal to it in key order. -/
def pyInsert {α : Type} (lt : α → α → Bool) (x : α) : List α → List α
  | [] => [x]
  | y :: ys => if lt y x then y :: pyInsert lt x ys else x :: y :: ys

/-- Model of Python `sorted(l, key=...)`: Python's sort is stable and
ascending, and a stable ascending sort is unique as a function, so the
straightforward stable insertion sort computes it. -/
def pySorted {α : Type} (lt : α → α → Bool) (l : List α) : List α :=
  l.foldr (pyInsert lt) []

theorem pyInsert_perm {α : Type} (lt : α → α → Bool) (x : α) (l : List α) :
    (pyInsert lt x l).Perm (x :: l) := by
  induction l with
  | nil => simp [pyInsert]
  | cons y ys ih =>
    by_cases hlt : lt y x
    · simp only [pyInsert, hlt, if_true]
      exact ((ih.cons y).trans (List.Perm.swap x y ys))
    · simp [pyInsert, hlt]

theorem pySorted_perm {α : Type} (lt : α → α → Bool) (l : List α) :
    (pySorted lt l).Perm l := by
  induction l with
  | nil => simp [pySorted]
  | cons x xs ih =>
    have : pySorted lt (x :: xs) = pyInsert lt x (pySorted lt xs) := rfl
    rw [this]
    exact (pyInsert_perm lt x (pySorted lt xs)).trans (ih.cons x)

theorem pyInsert_pairwise {α : Type} (lt : α → α → Bool)
    (hneg : ∀ a b c, lt a b = false → lt b c = false → lt a c = false)
    (hasym : ∀ a b, lt a b = true → lt b a = false)
    (x : α) (l : List α) (hl : l.Pairwise (fun a b => lt b a = false)) :
    (pyInsert lt x l).Pairwise (fun a b => lt b a = false) := by
  induction l with
  | nil => simp [pyInsert]
  | cons y ys ih =>
    rcases List.pairwise_cons.mp hl with ⟨hy, hys⟩
    by_cases hlt : lt y x
    · simp only [pyInsert, hlt, if_true]
      refine List.pairwise_cons.mpr ⟨?_, ih hys⟩
      intro z hz
      rcases List.mem_cons.mp ((pyInsert_perm lt x ys).mem_iff.mp hz) with hzx | hzys
      · rw [hzx]; exact hasym y x hlt
      · exact hy z hzys
    · simp only [pyInsert, hlt, if_false]
      refine List.pairwise_cons.mpr ⟨?_, hl⟩
      intro z hz
      rcases List.mem_cons.mp hz with hzy | hzys
      · rw [hzy]; simpa using hlt
      · exact hneg z y x (hy z hzys) (by simpa using hlt)

theorem pySorted_pairwise {α : Type} (lt : α → α → Bool)
    (hneg : ∀ a b c, lt a b = false → lt b c = false → lt a c = false)
    (hasym : ∀ a b, lt a b = true → lt b a = false)
    (l : List α) :
    (pySorted lt l).Pairwise (fun a b => lt b a = false) := by
  induction l with
  | nil => simp [pySorted]
  | cons x xs ih => exact pyInsert_pairwise lt hneg hasym x (pySorted lt xs) ih

/-! ### First-appearance deduplication (insertion order of Python dicts) -/

/-- Worker: drop every element already seen. -/
def firstDedupGo {α : Type} [DecidableEq α] (seen : List α) : List α → List α
  | [] => []
  | x :: xs =>
    if x ∈ seen then firstDedupGo seen xs else x :: firstDedupGo (x :: seen) xs

/-- The distinct elements of `l`, each at its first appearance, in order. -/
def firstDedup {α : Type} [DecidableEq α] (l : List α) : List α :=
  firstDedupGo [] l

theorem firstDedupGo_append_singleton {α : Type} [DecidableEq α]
    (l : List α) (k : α) :
    ∀ seen : List α, firstDedupGo seen (l ++ [k]) =
      firstDedupGo seen l ++ (if k ∈ seen ∨ k ∈ l then [] else [k]) := by
  induction l with
  | nil => intro seen; by_cases hk : k ∈ seen <;> simp [firstDedupGo, hk]
  | cons x xs ih =>
    intro seen
    by_cases hx : x ∈ seen
    · simp only [List.cons_append, firstDedupGo, hx, if_true, List.append_eq]
      rw [ih seen]
      have hxk : k = x → k ∈ seen := fun h => h ▸ hx
      have hiff : (k ∈ seen ∨ k ∈ xs) ↔ (k ∈ seen ∨ k ∈ x :: xs) := by
        simp only [List.mem_cons]; tauto
      simp only [hiff]
    · simp only [List.cons_append, firstDedupGo, hx, if_false, List.append_eq]
      rw [ih (x :: seen)]
      have hiff : (k ∈ x :: seen ∨ k ∈ xs) ↔ (k ∈ seen ∨ k ∈ x :: xs) := by
        simp only [List.mem_cons]; tauto
      simp only [hiff]

theorem mem_firstDedupGo {α : Type} [DecidableEq α] (l : List α) (k : α) :
    ∀ seen : List α, k ∈ firstDedupGo seen l ↔ k ∈ l ∧ k ∉ seen := by
  induction l with
  | nil => intro seen; simp [firstDedupGo]
  | cons x xs ih =>
    intro seen
    by_cases hx : x ∈ seen
    · simp only [firstDedupGo, hx, if_true, ih seen]
      constructor
      · rintro ⟨h1, h2⟩; exact ⟨by simp [h1], h2⟩
      · rintro ⟨h1, h2⟩
        rcases List.mem_cons.mp h1 with h | h
        · subst h; exact absurd hx h2
        · exact ⟨h, h2⟩
    · simp only [firstDedupGo, hx, if_false]
      constructor
      · intro h
        rcases List.mem_cons.mp h with h | h
        · subst h; exact ⟨by simp, hx⟩
        · rcases (ih (x :: seen)).mp h with ⟨h1, h2⟩
          exact ⟨by simp [h1], fun hc => h2 (by simp [hc])⟩
      · rintro ⟨h1, h2⟩
        rcases List.mem_cons.mp h1 with h | h
        · subst h; simp
        · by_cases hkx : k = x
          · subst hkx; simp
          · exact List.mem_cons_of_mem x ((ih (x :: seen)).mpr ⟨h, by simp [hkx, h2]⟩)

theorem firstDedupGo_nodup {α : Type} [DecidableEq α] (l : List α) :
    ∀ seen : List α, (firstDedupGo seen l).Nodup := by
  induction l with
  | nil => intro seen; simp [firstDedupGo]
  | cons x xs ih =>
    intro seen
    by_cases hx : x ∈ seen
    · simpa [firstDedupGo, hx] using ih seen
    · simp only [firstDedupGo, hx, if_false]
      refine List.nodup_cons.mpr ⟨?_, ih (x :: seen)⟩
      intro hc
      exact ((mem_firstDedupGo xs x (x :: seen)).mp hc).2 (by simp)

theorem firstDedup_append_singleton {α : Type} [DecidableEq α] (l : List α) (k : α) :
    firstDedup (l ++ [k]) = firstDedup l ++ (if k ∈ l then [] else [k]) := by
  unfold firstDedup
  rw [firstDedupGo_append_singleton]
  simp

theorem mem_firstDedup {α : Type} [DecidableEq α] (l : List α) (k : α) :
    k ∈ firstDedup l ↔ k ∈ l := by
  unfold firstDedup
  rw [mem_firstDedupGo]
  simp

theorem firstDedup_nodup {α : Type} [DecidableEq α] (l : List α) :
    (firstDedup l).Nodup := firstDedupGo_nodup l []

/-! ### Exact-rational model of Python floats

Python `float` values are idealised as exact rationals.  The executable
representation is a plain numerator/denominator pair so that every
operation reduces inside the kernel; `PyF.toRat` gives the mathematical
value.  Arithmetic normalises, so values built by the embedded programs
always have a positive denominator. -/

structure PyF where
  num : ℤ
  den : ℤ
deriving DecidableEq, Repr

/-- Normalised fraction `n / d`: positive denominator, lowest terms. -/
def PyF.norm (n d : ℤ) : PyF :=
  if (Int.gcd n d : ℤ) = 0 then ⟨0, 1⟩
  else ⟨(if d < 0 then (-1 : ℤ) else 1) * n / (Int.gcd n d : ℤ),
        (if d < 0 then (-1 : ℤ) else 1) * d / (Int.gcd n d : ℤ)⟩

def PyF.ofInt (n : ℤ) : PyF := ⟨n, 1⟩

def PyF.add (a b : PyF) : PyF := PyF.norm (a.num * b.den + b.num * a.den) (a.den * b.den)

def PyF.div (a b : PyF) : PyF := PyF.norm (a.num * b.den) (a.den * b.num)

/-- Python `a < b` on floats (valid for positive denominators). -/
def PyF.ltB (a b : PyF) : Bool := decide (a.num * b.den < b.num * a.den)

/-- The mathematical value of a `PyF`. -/
def PyF.toRat (a : PyF) : ℚ := (a.num : ℚ) / (a.den : ℚ)

/-- Python `sum(l)` (starts from the int `0`). -/
def PyF.sumList (l : List PyF) : PyF := l.foldl PyF.add (PyF.ofInt 0)

/-- Python `min(l)`: `None` on an empty list models the `ValueError`;
ties keep the earliest element, as CPython does. -/
def PyF.minList : List PyF → Option PyF
  | [] => none
  | x :: xs => some (xs.foldl (fun m y => if PyF.ltB y m then y else m) x)

/-- Python `max(l)`. -/
def PyF.maxList : List PyF → Option PyF
  | [] => none
  | x :: xs => some (xs.foldl (fun m y => if PyF.ltB m y then y else m) x)

theorem PyF.norm_den_pos (n d : ℤ) (hd : d ≠ 0) : 0 < (PyF.norm n d).den := by
  unfold PyF.norm
  have hgn : Int.gcd n d ≠ 0 := fun hc => hd (Int.gcd_eq_zero_iff.mp hc).2
  have hg : (Int.gcd n d : ℤ) ≠ 0 := by exact_mod_cast hgn
  rw [if_neg hg]
  set g : ℤ := (Int.gcd n d : ℤ) with hgdef
  set s : ℤ := if d < 0 then (-1 : ℤ) else 1 with hsdef
  have hgpos : (0 : ℤ) < g := lt_of_le_of_ne (hgdef ▸ Int.natCast_nonneg _) (Ne.symm hg)
  obtain ⟨d1, hd1⟩ : g ∣ d := hgdef ▸ Int.gcd_dvd_right
  have hsd : (0 : ℤ) < s * d := by
    rw [hsdef]
    by_cases h : d < 0
    · simp only [h, if_true]; linarith
    · simp only [h, if_false, one_mul]
      exact lt_of_le_of_ne (not_lt.mp h) (Ne.symm hd)
  have e2 : s * d / g = s * d1 := by
    rw [hd1, show s * (g * d1) = g * (s * d1) by ring, Int.mul_ediv_cancel_left _ hg]
  show 0 < s * d / g
  rw [e2]
  by_contra hcnp
  push_neg at hcnp
  have h3 : g * (s * d1) ≤ 0 := mul_nonpos_of_nonneg_of_nonpos (le_of_lt hgpos) hcnp
  rw [show g * (s * d1) = s * (g * d1) by ring, ← hd1] at h3
  linarith

theorem PyF.norm_toRat (n d : ℤ) (hd : d ≠ 0) :
    (PyF.norm n d).toRat = (n : ℚ) / (d : ℚ) := by
  unfold PyF.norm PyF.toRat
  have hgn : Int.gcd n d ≠ 0 := fun hc => hd (Int.gcd_eq_zero_iff.mp hc).2
  have hg : (Int.gcd n d : ℤ) ≠ 0 := by exact_mod_cast hgn
  rw [if_neg hg]
  set g : ℤ := (Int.gcd n d : ℤ) with hgdef
  set s : ℤ := if d < 0 then (-1 : ℤ) else 1 with hsdef
  have hs : s ≠ 0 := by
    rw [hsdef]; by_cases h : d < 0 <;> simp [h]
  obtain ⟨n1, hn1⟩ : g ∣ n := hgdef ▸ Int.gcd_dvd_left
  obtain ⟨d1, hd1⟩ : g ∣ d := hgdef ▸ Int.gcd_dvd_right
  have e1 : s * n / g = s * n1 := by
    rw [hn1, show s * (g * n1) = g * (s * n1) by ring, Int.mul_ediv_cancel_left _ hg]
  have e2 : s * d / g = s * d1 := by
    rw [hd1, show s * (g * d1) = g * (s * d1) by ring, Int.mul_ediv_cancel_left _ hg]
  show ((s * n / g : ℤ) : ℚ) / ((s * d / g : ℤ) : ℚ) = (n : ℚ) / (d : ℚ)
  rw [e1, e2, hn1, hd1]
  push_cast
  rw [mul_div_mul_left _ _ (show (s : ℚ) ≠ 0 from by exact_mod_cast hs),
    mul_div_mul_left _ _ (show (g : ℚ) ≠ 0 from by exact_mod_cast hg)]

theorem PyF.norm_coprime (n d : ℤ) (hd : d ≠ 0) :
    Int.gcd (PyF.norm n d).num (PyF.norm n d).den = 1 := by
  unfold PyF.norm
  have hgn : Int.gcd n d ≠ 0 := fun hc => hd (Int.gcd_eq_zero_iff.mp hc).2
  have hg : (Int.gcd n d : ℤ) ≠ 0 := by exact_mod_cast hgn
  rw [if_neg hg]
  set g : ℤ := (Int.gcd n d : ℤ) with hgdef
  set s : ℤ := if d < 0 then (-1 : ℤ) else 1 with hsdef
  have hsor : s = 1 ∨ s = -1 := by
    rw [hsdef]; by_cases h : d < 0 <;> simp [h]
  have e1 : s * n / g = s * (n / g) := Int.mul_ediv_assoc s (hgdef ▸ Int.gcd_dvd_left)
  have e2 : s * d / g = s * (d / g) := Int.mul_ediv_assoc s (hgdef ▸ Int.gcd_dvd_right)
  show Int.gcd (s * n / g) (s * d / g) = 1
  rw [e1, e2]
  have habs : Int.gcd (s * (n / g)) (s * (d / g)) = Int.gcd (n / g) (d / g) := by
    rcases hsor with h | h <;> rw [h] <;>
      simp [Int.gcd, Int.natAbs_neg, neg_one_mul, one_mul]
  rw [habs, hgdef]
  exact Int.gcd_div_gcd_div_gcd (Nat.pos_of_ne_zero hgn)

theorem PyF.ofInt_den_pos (n : ℤ) : 0 < (PyF.ofInt n).den := by
  simp [PyF.ofInt]

theorem PyF.ofInt_toRat (n : ℤ) : (PyF.ofInt n).toRat = (n : ℚ) := by
  simp [PyF.ofInt, PyF.toRat]

theorem PyF.add_den_pos (a b : PyF) (ha : a.den ≠ 0) (hb : b.den ≠ 0) :
    0 < (a.add b).den :=
  PyF.norm_den_pos _ _ (mul_ne_zero ha hb)

theorem PyF.add_toRat (a b : PyF) (ha : a.den ≠ 0) (hb : b.den ≠ 0) :
    (a.add b).toRat = a.toRat + b.toRat := by
  unfold PyF.add
  rw [PyF.norm_toRat _ _ (mul_ne_zero ha hb)]
  unfold PyF.toRat
  have haq : (a.den : ℚ) ≠ 0 := by exact_mod_cast ha
  have hbq : (b.den : ℚ) ≠ 0 := by exact_mod_cast hb
  field_simp

theorem PyF.div_den_pos (a b : PyF) (ha : a.den ≠ 0) (hbn : b.num ≠ 0) :
    0 < (a.div b).den :=
  PyF.norm_den_pos _ _ (mul_ne_zero ha hbn)

theorem PyF.div_toRat (a b : PyF) (ha : a.den ≠ 0) (hb : b.den ≠ 0) (hbn : b.num ≠ 0) :
    (a.div b).toRat = a.toRat / b.toRat := by
  unfold PyF.div
  rw [PyF.norm_toRat _ _ (mul_ne_zero ha hbn)]
  unfold PyF.toRat
  have haq : (a.den : ℚ) ≠ 0 := by exact_mod_cast ha
  have hbq : (b.den : ℚ) ≠ 0 := by exact_mod_cast hb
  have hbnq : (b.num : ℚ) ≠ 0 := by exact_mod_cast hbn
  field_simp

theorem PyF.ltB_iff (a b : PyF) (ha : 0 < a.den) (hb : 0 < b.den) :
    PyF.ltB a b = true ↔ a.toRat < b.toRat := by
  unfold PyF.ltB PyF.toRat
  have haq : (0 : ℚ) < (a.den : ℚ) := by exact_mod_cast ha
  have hbq : (0 : ℚ) < (b.den : ℚ) := by exact_mod_cast hb
  rw [decide_eq_true_iff, div_lt_div_iff haq hbq]
  constructor
  · intro h; exact_mod_cast h
  · intro h; exact_mod_cast h

theorem PyF.sumList_aux (l : List PyF) :
    ∀ acc : PyF, 0 < acc.den → (∀ x ∈ l, 0 < x.den) →
      0 < (l.foldl PyF.add acc).den ∧
      (l.foldl PyF.add acc).toRat = acc.toRat + (l.map PyF.toRat).sum := by
  induction l with
  | nil => intro acc hacc _; simpa using hacc
  | cons x xs ih =>
    intro acc hacc hl
    have hx : 0 < x.den := hl x (by simp)
    have hstep : 0 < (acc.add x).den := PyF.add_den_pos acc x (ne_of_gt hacc) (ne_of_gt hx)
    obtain ⟨hp, he⟩ := ih (acc.add x) hstep (fun z hz => hl z (by simp [hz]))
    refine ⟨hp, ?_⟩
    rw [List.foldl_cons, he, PyF.add_toRat acc x (ne_of_gt hacc) (ne_of_gt hx)]
    simp [add_assoc]

theorem PyF.sumList_den_pos (l : List PyF) (h : ∀ x ∈ l, 0 < x.den) :
    0 < (PyF.sumList l).den :=
  (PyF.sumList_aux l (PyF.ofInt 0) (PyF.ofInt_den_pos 0) h).1

theorem PyF.sumList_toRat (l : List PyF) (h : ∀ x ∈ l, 0 < x.den) :
    (PyF.sumList l).toRat = (l.map PyF.toRat).sum := by
  have := (PyF.sumList_aux l (PyF.ofInt 0) (PyF.ofInt_den_pos 0) h).2
  rw [PyF.ofInt_toRat] at this
  simpa using this

theorem PyF.minList_aux (xs : List PyF) :
    ∀ acc : PyF, 0 < acc.den → (∀ x ∈ xs, 0 < x.den) →
      let m := xs.foldl (fun m y => if PyF.ltB y m then y else m) acc
      (m = acc ∨ m ∈ xs) ∧ 0 < m.den ∧ m.toRat ≤ acc.toRat ∧
        ∀ x ∈ xs, m.toRat ≤ x.toRat := by
  induction xs with
  | nil => intro acc hacc _; exact ⟨Or.inl rfl, hacc, le_refl _, by simp⟩
  | cons y ys ih =>
    intro acc hacc hl
    have hy : 0 < y.den := hl y (by simp)
    by_cases hb : PyF.ltB y acc
    · have step : (y :: ys).foldl (fun m y => if PyF.ltB y m then y else m) acc
          = ys.foldl (fun m y => if PyF.ltB y m then y else m) y := by
        simp [hb]
      obtain ⟨hm, hp, hle, hall⟩ := ih y hy (fun z hz => hl z (by simp [hz]))
      have hya : y.toRat < acc.toRat := (PyF.ltB_iff y acc hy hacc).mp hb
      rw [step]
      refine ⟨?_, hp, le_trans hle (le_of_lt hya), ?_⟩
      · rcases hm with h | h
        · exact Or.inr (by simp [h])
        · exact Or.inr (by simp [h])
      · intro x hx
        rcases List.mem_cons.mp hx with h | h
        · rw [h]; exact hle
        · exact hall x h
    · have step : (y :: ys).foldl (fun m y => if PyF.ltB y m then y else m) acc
          = ys.foldl (fun m y => if PyF.ltB y m then y else m) acc := by
        simp [hb]
      obtain ⟨hm, hp, hle, hall⟩ := ih acc hacc (fun z hz => hl z (by simp [hz]))
      have hya : ¬ y.toRat < acc.toRat := fun hc =>
        hb ((PyF.ltB_iff y acc hy hacc).mpr hc)
      rw [step]
      refine ⟨?_, hp, hle, ?_⟩
      · rcases hm with h | h
        · exact Or.inl h
        · exact Or.inr (by simp [h])
      · intro x hx
        rcases List.mem_cons.mp hx with h | h
        · rw [h]; exact le_trans hle (not_lt.mp hya)
        · exact hall x h

theorem PyF.minList_spec (l : List PyF) (hne : l ≠ []) (h : ∀ x ∈ l, 0 < x.den) :
    ∃ m, PyF.minList l = some m ∧ m ∈ l ∧ 0 < m.den ∧ ∀ x ∈ l, m.toRat ≤ x.toRat := by
  cases l with
  | nil => exact absurd rfl hne
  | cons x xs =>
    have hx : 0 < x.den := h x (by simp)
    obtain ⟨hm, hp, hle, hall⟩ :=
      PyF.minList_aux xs x hx (fun z hz => h z (by simp [hz]))
    refine ⟨_, rfl, ?_, hp, ?_⟩
    · rcases hm with hc | hc
      · rw [hc]; simp
      · simp [hc]
    · intro z hz
      rcases List.mem_cons.mp hz with hc | hc
      · rw [hc]; exact hle
      · exact hall z hc

theorem PyF.maxList_aux (xs : List PyF) :
    ∀ acc : PyF, 0 < acc.den → (∀ x ∈ xs, 0 < x.den) →
      let m := xs.foldl (fun m y => if PyF.ltB m y then y else m) acc
      (m = acc ∨ m ∈ xs) ∧ 0 < m.den ∧ acc.toRat ≤ m.toRat ∧
        ∀ x ∈ xs, x.toRat ≤ m.toRat := by
  induction xs with
  | nil => intro acc hacc _; exact ⟨Or.inl rfl, hacc, le_refl _, by simp⟩
  | cons y ys ih =>
    intro acc hacc hl
    have hy : 0 < y.den := hl y (by simp)
    by_cases hb : PyF.ltB acc y
    · have step : (y :: ys).foldl (fun m y => if PyF.ltB m y then y else m) acc
          = ys.foldl (fun m y => if PyF.ltB m y then y else m) y := by
        simp [hb]
      obtain ⟨hm, hp, hle, hall⟩ := ih y hy (fun z hz => hl z (by simp [hz]))
      have hya : acc.toRat < y.toRat := (PyF.ltB_iff acc y hacc hy).mp hb
      rw [step]
      refine ⟨?_, hp, le_trans (le_of_lt hya) hle, ?_⟩
      · rcases hm with h | h
        · exact Or.inr (by simp [h])
        · exact Or.inr (by simp [h])
      · intro x hx
        rcases List.mem_cons.mp hx with h | h
        · rw [h]; exact hle
        · exact hall x h
    · have step : (y :: ys).foldl (fun m y => if PyF.ltB m y then y else m) acc
          = ys.foldl (fun m y => if PyF.ltB m y then y else m) acc := by
        simp [hb]
      obtain ⟨hm, hp, hle, hall⟩ := ih acc hacc (fun z hz => hl z (by simp [hz]))
      have hya : ¬ acc.toRat < y.toRat := fun hc =>
        hb ((PyF.ltB_iff acc y hacc hy).mpr hc)
      rw [step]
      refine ⟨?_, hp, hle, ?_⟩
      · rcases hm with h | h
        · exact Or.inl h
        · exact Or.inr (by simp [h])
      · intro x hx
        rcases List.mem_cons.mp hx with h | h
        · rw [h]; exact le_trans (not_lt.mp hya) hle
        · exact hall x h

theorem PyF.maxList_spec (l : List PyF) (hne : l ≠ []) (h : ∀ x ∈ l, 0 < x.den) :
    ∃ m, PyF.maxList l = some m ∧ m ∈ l ∧ 0 < m.den ∧ ∀ x ∈ l, x.toRat ≤ m.toRat := by
  cases l with
  | nil => exact absurd rfl hne
  | cons x xs =>
    have hx : 0 < x.den := h x (by simp)
    obtain ⟨hm, hp, hle, hall⟩ :=
      PyF.maxList_aux xs x hx (fun z hz => h z (by simp [hz]))
    refine ⟨_, rfl, ?_, hp, ?_⟩
    · rcases hm with hc | hc
      · rw [hc]; simp
      · simp [hc]
    · intro z hz
      rcases List.mem_cons.mp hz with hc | hc
      · rw [hc]; exact hle
      · exact hall z hc

/-! ### Rendering and parsing of Python floats -/

/-- Number of times `p` divides `n` (fuel-driven so it reduces in the kernel). -/
def countFactor (p : ℕ) : ℕ → ℕ → ℕ
  | 0, _ => 0
  | fuel + 1, n => if 2 ≤ p ∧ n ≠ 0 ∧ n % p = 0 then countFactor p fuel (n / p) + 1 else 0

/-- Left-pad a digit string with zeros to length `k`. -/
def padZeros (s : String) (k : ℕ) : String :=
  String.mk (List.replicate (k - s.length) '0') ++ s

/-- Model of `str(int(v)) if v.is_integer() else str(v)` on a Python float
(`mergeduplicates._apply_action`, line 130): an integral value prints with
no fractional part; a non-integral value prints as its exact decimal
expansion (every actual IEEE float has one; the `num/den` fallback is dead
for such values). -/
def pyFloatStr (x : PyF) : String :=
  let c := PyF.norm x.num x.den
  if c.den = 1 then toString c.num
  else
    let dn := c.den.natAbs
    let a := countFactor 2 dn dn
    let b := countFactor 5 dn dn
    if 2 ^ a * 5 ^ b = dn then
      let k := max a b
      let m := c.num.natAbs * 10 ^ k / dn
      (if c.num < 0 then "-" else "") ++ toString (m / 10 ^ k) ++ "." ++
        padZeros (toString (m % 10 ^ k)) k
    else toString c.num ++ "/" ++ toString c.den

/-- Rendering an integral value drops the fractional part: this is the
`str(int(flt_val)) if flt_val.is_integer()` branch. -/
theorem pyFloatStr_int (v : PyF) (hv : 0 < v.den) (h1 : v.toRat.den = 1) :
    pyFloatStr v = toString v.toRat.num := by
  have hd : v.den ≠ 0 := ne_of_gt hv
  have hcr : (PyF.norm v.num v.den).toRat = v.toRat := PyF.norm_toRat v.num v.den hd
  have hcp : 0 < (PyF.norm v.num v.den).den := PyF.norm_den_pos v.num v.den hd
  have hco : Int.gcd (PyF.norm v.num v.den).num (PyF.norm v.num v.den).den = 1 :=
    PyF.norm_coprime v.num v.den hd
  set c := PyF.norm v.num v.den with hc_def
  -- the value is the integer v.toRat.num
  have hqint : v.toRat = (v.toRat.num : ℚ) := by
    conv_lhs => rw [← Rat.num_div_den v.toRat]
    rw [h1]
    simp
  have hcval : (c.num : ℚ) / (c.den : ℚ) = (v.toRat.num : ℚ) := by
    rw [show (c.num : ℚ) / (c.den : ℚ) = c.toRat from rfl, hcr, ← hqint]
  have hcden : (c.den : ℚ) ≠ 0 := by
    exact_mod_cast ne_of_gt hcp
  have hnum : (c.num : ℚ) = (v.toRat.num : ℚ) * (c.den : ℚ) := by
    field_simp at hcval
    linarith [hcval]
  have hnumz : c.num = v.toRat.num * c.den := by exact_mod_cast hnum
  have hdvd : c.den ∣ c.num := ⟨v.toRat.num, by rw [hnumz]; ring⟩
  have hgcd : Int.gcd c.num c.den = c.den.natAbs := Int.gcd_eq_right hdvd
  have hden1 : c.den = 1 := by
    have : c.den.natAbs = 1 := by rw [← hgcd, hco]
    rcases Int.natAbs_eq c.den with h | h
    · rw [h, this]; rfl
    · rw [h, this] at hcp ⊢
      exact absurd hcp (by norm_num)
  have hnumval : c.num = v.toRat.num := by rw [hnumz, hden1, mul_one]
  unfold pyFloatStr
  rw [← hc_def, if_pos hden1, hnumval]

/-- Numeric value of a digit string (`[]` counts as 0; callers check
non-emptiness where Python requires a digit). -/
def digitsToNat (cs : List Char) : ℕ :=
  cs.foldl (fun n c => 10 * n + (c.toNat - 48)) 0

/-- Split an optional leading sign off a character list. -/
def splitSign : List Char → ℤ × List Char
  | '-' :: cs => (-1, cs)
  | '+' :: cs => (1, cs)
  | cs => (1, cs)

/-- Parse the mantissa part of a Python float literal: digits with an
optional decimal point, at least one digit overall. -/
def parseMantissa (cs : List Char) : Option PyF :=
  match cs.dropWhile Char.isDigit with
  | [] =>
    if (cs.takeWhile Char.isDigit).isEmpty then none
    else some (PyF.ofInt (digitsToNat (cs.takeWhile Char.isDigit) : ℤ))
  | '.' :: fp =>
    if fp.all Char.isDigit ∧ ¬((cs.takeWhile Char.isDigit).isEmpty ∧ fp.isEmpty) then
      some (PyF.norm
        ((digitsToNat (cs.takeWhile Char.isDigit) : ℤ) * (10 : ℤ) ^ fp.length +
          (digitsToNat fp : ℤ))
        ((10 : ℤ) ^ fp.length))
    else none
  | _ => none

/-- Model of Python `float(s)`: optional surrounding whitespace, optional
sign, decimal mantissa, optional exponent.  `inf`/`nan` are not
representable in the exact-rational idealisation and are treated as
parse failures; no claim exercises them. -/
def pyFloat? (s : String) : Option PyF :=
  let cs := pyStrip s.data
  let sgcs := splitSign cs
  let mant := sgcs.2.takeWhile (fun c => !(c == 'e' || c == 'E'))
  let rest := sgcs.2.dropWhile (fun c => !(c == 'e' || c == 'E'))
  match rest with
  | [] => (parseMantissa mant).map (fun m => PyF.norm (sgcs.1 * m.num) m.den)
  | _ :: ex =>
    match parseMantissa mant with
    | none => none
    | some m =>
      let esgd := splitSign ex
      if esgd.2 ≠ [] ∧ esgd.2.all Char.isDigit then
        if 0 ≤ esgd.1 then
          some (PyF.norm (sgcs.1 * m.num * (10 : ℤ) ^ digitsToNat esgd.2) m.den)
        else
          some (PyF.norm (sgcs.1 * m.num) (m.den * (10 : ℤ) ^ digitsToNat esgd.2))
      else none

/-- Model of Python `int(s)`: optional surrounding whitespace, optional
sign, digits. -/
def pyInt? (s : String) : Option ℤ :=
  let cs := pyStrip s.data
  let sgds := splitSign cs
  if sgds.2 ≠ [] ∧ sgds.2.all Char.isDigit then
    some (sgds.1 * (digitsToNat sgds.2 : ℤ))
  else none

theorem parseMantissa_den_pos (cs : List Char) (m : PyF) (h : parseMantissa cs = some m) :
    0 < m.den := by
  unfold parseMantissa at h
  split at h
  · split at h
    · exact absurd h (by simp)
    · rw [← Option.some.inj h]
      exact PyF.ofInt_den_pos _
  · split at h
    · rw [← Option.some.inj h]
      exact PyF.norm_den_pos _ _ (by positivity)
    · exact absurd h (by simp)
  · exact absurd h (by simp)

theorem pyFloat?_den_pos (s : String) (m : PyF) (h : pyFloat? s = some m) :
    0 < m.den := by
  unfold pyFloat? at h
  dsimp only at h
  split at h
  · cases hm : parseMantissa ((splitSign (pyStrip s.data)).2.takeWhile
        (fun c => !(c == 'e' || c == 'E'))) with
    | none => rw [hm] at h; exact absurd h (by simp)
    | some m0 =>
      rw [hm] at h
      rw [← Option.some.inj h]
      exact PyF.norm_den_pos _ _ (ne_of_gt (parseMantissa_den_pos _ _ hm))
  · split at h
    · exact absurd h (by simp)
    · rename_i m0 hm
      have hmp : 0 < m0.den := parseMantissa_den_pos _ _ hm
      split at h
      · split at h
        · rw [← Option.some.inj h]
          exact PyF.norm_den_pos _ _ (ne_of_gt hmp)
        · rw [← Option.some.inj h]
          exact PyF.norm_den_pos _ _ (ne_of_gt (by positivity))
      · exact absurd h (by simp)

/-! ## `mergeduplicates.py` -/

namespace MergeDup

/-- The four numeric merge actions, as the CLI passes them to `merge`
(`sums`, `means`, `mins`, `maxs` keyword lists of 1-based field numbers). -/
structure Actions where
  sums : List ℕ
  means : List ℕ
  mins : List ℕ
  maxs : List ℕ
deriving DecidableEq, Repr

/-- `itertools.chain(*actions.values())` for the four action lists. -/
def Actions.chain (a : Actions) : List ℕ := a.sums ++ a.means ++ a.mins ++ a.maxs

/-- The composite key of a row: `"\t".join([fields[k - 1] for k in keys])`
(`_group_by_key`, line 92). -/
def rowKey (keys : List ℕ) (fields : List String) : String :=
  String.intercalate "\t" (keys.map (fun k => fields.getD (k - 1) ""))

/-- One step of `_group_by_key`'s dict update: append the row to its key's
group, or open a new group at the end (insertion order of a Python dict). -/
def addToGroup (key : String) (fields : List String) :
    List (String × List (List String)) → List (String × List (List String))
  | [] => [(key, [fields])]
  | (k, rows) :: rest =>
    if k = key then (k, rows ++ [fields]) :: rest
    else (k, rows) :: addToGroup key fields rest

/-- `_group_by_key` (lines 84-97): group the data rows by composite key,
keeping first-appearance order of keys and input order inside groups. -/
def group_by_key (keys : List ℕ) (lines : List (List String)) :
    List (String × List (List String)) :=
  lines.foldl (fun data fields => addToGroup (rowKey keys fields) fields data) []

/-- The column-`i` values of the group that are non-empty, in row order
(the repeated comprehension filter `len(fields[i]) > 0`). -/
def nonEmptyCol (rows : List (List String)) (i : ℕ) : List String :=
  (rows.map (fun fields => fields.getD i "")).filter (fun v => v.length > 0)

/-- The message built by `_conv_to_float`'s `except ValueError` handler
(lines 137-141), including the `str(err).split(": ")[1]` extraction. -/
def notNumericMsg (i : ℕ) (v : String) : String :=
  "error: field " ++ toString (i + 1) ++ " is not numeric (" ++
    ((strSplitOn ": " ("could not convert string to float: '" ++ v ++ "'")).getD 1 "") ++ ")"

/-- `_conv_to_float` (lines 133-142): parse the non-empty column-`i` values
as floats, raising `SystemExit` at the first failure. -/
def conv_to_float : List (List String) → ℕ → Except PyErr (List PyF)
  | [], _ => .ok []
  | fields :: rest, i =>
    if (fields.getD i "").length > 0 then
      match pyFloat? (fields.getD i "") with
      | none => .error (.systemExit (notNumericMsg i (fields.getD i "")))
      | some q =>
        match conv_to_float rest i with
        | .error e => .error e
        | .ok qs => .ok (q :: qs)
    else conv_to_float rest i

/-- `_apply_action` (lines 100-130).  `sum`/`mean` share the first branch
(`mean` divides by the number of parsed values afterwards); the final
rendering is `pyFloatStr`.  The unknown-action `KeyError` branch keeps a
fixed message (the Python message enumerates the surviving kwargs, which
the fixed-shape `Actions` model does not track). -/
def apply_action (data : List (List String)) (i : ℕ) (a : Actions) : Except PyErr String :=
  match conv_to_float data i with
  | .error e => .error e
  | .ok flt =>
    if i + 1 ∈ a.sums ++ a.means then
      if i + 1 ∈ a.means then
        if flt.length = 0 then .error .zeroDivision
        else .ok (pyFloatStr ((PyF.sumList flt).div (PyF.ofInt (flt.length : ℤ))))
      else .ok (pyFloatStr (PyF.sumList flt))
    else if i + 1 ∈ a.mins then
      match PyF.minList flt with
      | none => .error .valueError
      | some v => .ok (pyFloatStr v)
    else if i + 1 ∈ a.maxs then
      match PyF.maxList flt with
      | none => .error .valueError
      | some v => .ok (pyFloatStr v)
    else .error (.keyError "error: unknown action specified")

/-- The per-group body of `merge`'s output loop (lines 58-81): a unique row
is emitted unchanged; otherwise each field is taken from the key, an
action, or the comma-collapse branch. -/
def mergeGroup (keys : List ℕ) (a : Actions) (rows : List (List String)) :
    Except PyErr (List String) :=
  if rows.length = 1 then .ok (rows.headD [])
  else
    mapME (fun i =>
      if i + 1 ∈ keys then .ok ((rows.headD []).getD i "")
      else if i + 1 ∈ a.chain then apply_action rows i a
      else
        let strValues := nonEmptyCol rows i
        if strValues.dedup.length = 1 then .ok (strValues.headD "")
        else .ok (String.intercalate "," strValues))
      (List.range (rows.headD []).length)

/-- `merge` (lines 43-81) on the data rows (the optional header line is
printed verbatim before this loop and is not part of the model; output
rows are field lists, printed tab-joined). -/
def merge (keys : List ℕ) (a : Actions) (lines : List (List String)) :
    Except PyErr (List (List String)) :=
  mapME (fun g => mergeGroup keys a g.2) (group_by_key keys lines)

/-- The `__main__` argument validation (lines 245-255): `parser.error` is
called unless every `keys ++ <action>` list and the concatenation of the
four action lists are duplicate-free (`len(x) == len(set(x))`). -/
def validateArgs (keys sums means mins maxs : List ℤ) : Bool :=
  decide ((keys ++ sums).length = (keys ++ sums).dedup.length ∧
    (keys ++ means).length = (keys ++ means).dedup.length ∧
    (keys ++ mins).length = (keys ++ mins).dedup.length ∧
    (keys ++ maxs).length = (keys ++ maxs).dedup.length ∧
    (sums ++ means ++ mins ++ maxs).length = (sums ++ means ++ mins ++ maxs).dedup.length)

end MergeDup

namespace MergeDup

theorem addToGroup_of_not_mem (key : String) (x : List String)
    (d : List (String × List (List String))) (h : key ∉ d.map Prod.fst) :
    addToGroup key x d = d ++ [(key, [x])] := by
  induction d with
  | nil => rfl
  | cons g rest ih =>
    obtain ⟨k, rows⟩ := g
    have hk : k ≠ key := by
      intro hc
      exact h (by simp [hc])
    simp only [addToGroup, if_neg hk, List.cons_append, List.cons.injEq, true_and]
    exact ih (fun hc => h (by simp at hc ⊢; exact Or.inr hc))

theorem map_update_not_mem (key : String) (x : List String)
    (d : List (String × List (List String))) (h : key ∉ d.map Prod.fst) :
    d.map (fun g => if g.1 = key then (g.1, g.2 ++ [x]) else g) = d := by
  induction d with
  | nil => rfl
  | cons g rest ih =>
    have hk : g.1 ≠ key := fun hc => h (by simp [← hc])
    simp only [List.map_cons, if_neg hk]
    rw [ih (fun hc => h (by simp [hc]))]

theorem addToGroup_of_mem (key : String) (x : List String)
    (d : List (String × List (List String))) (h : key ∈ d.map Prod.fst)
    (hnd : (d.map Prod.fst).Nodup) :
    addToGroup key x d = d.map (fun g => if g.1 = key then (g.1, g.2 ++ [x]) else g) := by
  induction d with
  | nil => simp at h
  | cons g rest ih =>
    obtain ⟨k, rows⟩ := g
    simp only [List.map_cons] at h hnd
    rcases List.nodup_cons.mp hnd with ⟨hknotin, hndrest⟩
    by_cases hk : k = key
    · subst hk
      simp only [addToGroup, if_pos rfl, List.map_cons]
      simp [map_update_not_mem k x rest hknotin]
    · have hkey : key ∈ rest.map Prod.fst := by
        rcases List.mem_cons.mp h with hc | hc
        · exact absurd hc.symm hk
        · exact hc
      simp only [addToGroup, if_neg hk, List.map_cons]
      rw [ih hkey hndrest]

theorem addToGroup_map_fst (key : String) (x : List String)
    (d : List (String × List (List String))) :
    (addToGroup key x d).map Prod.fst =
      if key ∈ d.map Prod.fst then d.map Prod.fst else d.map Prod.fst ++ [key] := by
  induction d with
  | nil => simp [addToGroup]
  | cons g rest ih =>
    obtain ⟨k, rows⟩ := g
    by_cases hk : k = key
    · subst hk
      simp [addToGroup]
    · simp only [addToGroup, if_neg hk, List.map_cons, ih]
      by_cases hkey : key ∈ rest.map Prod.fst
      · rw [if_pos hkey, if_pos (by simp [hkey])]
      · rw [if_neg hkey, if_neg (by
          intro hc
          rcases List.mem_cons.mp hc with hc1 | hc2
          · exact hk hc1.symm
          · exact hkey hc2)]
        simp

theorem group_by_key_snoc (keys : List ℕ) (lines : List (List String))
    (r : List String) :
    group_by_key keys (lines ++ [r]) =
      addToGroup (rowKey keys r) r (group_by_key keys lines) := by
  unfold group_by_key
  rw [List.foldl_append]
  rfl

/-- Characterisation of `_group_by_key`: the group keys are the distinct
composite keys in first-appearance order, and each group holds exactly the
rows with that key, in input order. -/
theorem group_by_key_spec (keys : List ℕ) (lines : List (List String)) :
    (group_by_key keys lines).map Prod.fst = firstDedup (lines.map (rowKey keys)) ∧
    ∀ g ∈ group_by_key keys lines,
      g.2 = lines.filter (fun r => rowKey keys r = g.1) := by
  induction lines using List.reverseRecOn with
  | nil => exact ⟨rfl, by simp [group_by_key]⟩
  | append_singleton l r ih =>
    obtain ⟨hfst, hgrp⟩ := ih
    rw [group_by_key_snoc]
    have hnd : ((group_by_key keys l).map Prod.fst).Nodup := hfst ▸ firstDedup_nodup _
    by_cases hk : rowKey keys r ∈ (group_by_key keys l).map Prod.fst
    · -- existing key: the row is appended to its group
      have hkmem : rowKey keys r ∈ l.map (rowKey keys) := by
        rw [hfst] at hk
        exact (mem_firstDedup _ _).mp hk
      rw [addToGroup_of_mem _ _ _ hk hnd]
      constructor
      · rw [List.map_map]
        have : (Prod.fst ∘ fun g : String × List (List String) =>
            if g.1 = rowKey keys r then (g.1, g.2 ++ [r]) else g) = Prod.fst := by
          funext g
          by_cases hg : g.1 = rowKey keys r <;> simp [hg]
        rw [this, hfst]
        simp only [List.map_append, List.map_cons, List.map_nil]
        rw [firstDedup_append_singleton]
        simp [hkmem]
      · intro g' hg'
        obtain ⟨g, hg, hge⟩ := List.mem_map.mp hg'
        rw [List.filter_append]
        by_cases hgk : g.1 = rowKey keys r
        · rw [if_pos hgk] at hge
          rw [← hge]
          have hrfil : [r].filter (fun r' => decide (rowKey keys r' = g.1)) = [r] := by
            rw [List.filter_singleton,
              show decide (rowKey keys r = g.1) = true from decide_eq_true hgk.symm]
            rfl
          simp only [hrfil]
          rw [← hgrp g hg]
        · rw [if_neg hgk] at hge
          rw [← hge]
          have hrfil : [r].filter (fun r' => decide (rowKey keys r' = g.1)) = [] := by
            rw [List.filter_singleton,
              show decide (rowKey keys r = g.1) = false from
                decide_eq_false (fun hc => hgk hc.symm)]
            rfl
          simp only [hrfil, List.append_nil]
          exact hgrp g hg
    · -- new key: a fresh singleton group is appended
      have hknot : rowKey keys r ∉ l.map (rowKey keys) := by
        rw [hfst] at hk
        exact fun hc => hk ((mem_firstDedup _ _).mpr hc)
      rw [addToGroup_of_not_mem _ _ _ hk]
      constructor
      · rw [List.map_append, hfst]
        simp only [List.map_append, List.map_cons, List.map_nil]
        rw [firstDedup_append_singleton]
        simp [hknot]
      · intro g' hg'
        rcases List.mem_append.mp hg' with hgl | hgr
        · have hgne : g'.1 ≠ rowKey keys r := by
            intro hc
            exact hk (hc ▸ List.mem_map_of_mem Prod.fst hgl)
          rw [List.filter_append]
          have hrfil : [r].filter (fun r' => decide (rowKey keys r' = g'.1)) = [] := by
            rw [List.filter_singleton,
              show decide (rowKey keys r = g'.1) = false from
                decide_eq_false (fun hc => hgne hc.symm)]
            rfl
          simp only [hrfil, List.append_nil]
          exact hgrp g' hgl
        · have hge : g' = (rowKey keys r, [r]) := by simpa using hgr
          subst hge
          rw [List.filter_append]
          have hlfil : l.filter (fun r' => decide (rowKey keys r' = rowKey keys r)) = [] := by
            refine List.filter_eq_nil_iff.mpr ?_
            intro r' hr'
            simp only [decide_eq_true_eq]
            intro hc
            exact hknot (hc ▸ List.mem_map_of_mem (rowKey keys) hr')
          have hrfil : [r].filter (fun r' => decide (rowKey keys r' = rowKey keys r)) = [r] := by
            rw [List.filter_singleton,
              show decide (rowKey keys r = rowKey keys r) = true from decide_eq_true rfl]
            rfl
          simp only [hlfil, hrfil, List.nil_append]

/-- Every group produced by `_group_by_key` is non-empty. -/
theorem group_by_key_ne_nil (keys : List ℕ) (lines : List (List String)) :
    ∀ g ∈ group_by_key keys lines, g.2 ≠ [] := by
  intro g hg
  obtain ⟨hfst, hgrp⟩ := group_by_key_spec keys lines
  have hgk : g.1 ∈ (group_by_key keys lines).map Prod.fst :=
    List.mem_map_of_mem Prod.fst hg
  rw [hfst] at hgk
  obtain ⟨r, hr, hre⟩ := List.mem_map.mp ((mem_firstDedup _ _).mp hgk)
  rw [hgrp g hg]
  intro hc
  have := List.filter_eq_nil_iff.mp hc r hr
  simp [hre] at this

end MergeDup

namespace MergeDup

theorem nonEmptyCol_cons (fields : List String) (rest : List (List String)) (i : ℕ) :
    nonEmptyCol (fields :: rest) i =
      (if (fields.getD i "").length > 0 then [fields.getD i ""] else []) ++ nonEmptyCol rest i := by
  simp only [nonEmptyCol, List.map_cons, List.filter_cons]
  by_cases h : (fields.getD i "").length > 0
  · rw [if_pos (by simpa using h), if_pos h]; rfl
  · rw [if_neg (by simpa using h), if_neg h]; rfl

theorem conv_to_float_ok (rows : List (List String)) (i : ℕ) (qs : List PyF)
    (h : conv_to_float rows i = .ok qs) :
    (nonEmptyCol rows i).map pyFloat? = qs.map some := by
  induction rows generalizing qs with
  | nil =>
    simp only [conv_to_float] at h
    cases h
    simp [nonEmptyCol]
  | cons fields rest ih =>
    rw [nonEmptyCol_cons]
    simp only [conv_to_float] at h
    by_cases hv : (fields.getD i "").length > 0
    · rw [if_pos hv] at h
      rw [if_pos hv]
      cases hp : pyFloat? (fields.getD i "") with
      | none => rw [hp] at h; exact absurd h (by simp)
      | some q =>
        rw [hp] at h
        cases hrest : conv_to_float rest i with
        | error e => rw [hrest] at h; exact absurd h (by simp)
        | ok qs' =>
          rw [hrest] at h
          cases h
          simp only [List.singleton_append, List.map_cons, hp]
          rw [ih qs' hrest]
    · rw [if_neg hv] at h
      rw [if_neg hv]
      simpa using ih qs h

theorem conv_to_float_ok_length (rows : List (List String)) (i : ℕ) (qs : List PyF)
    (h : conv_to_float rows i = .ok qs) :
    qs.length = (nonEmptyCol rows i).length := by
  have := congrArg List.length (conv_to_float_ok rows i qs h)
  simpa using this.symm

theorem conv_to_float_den_pos (rows : List (List String)) (i : ℕ) (qs : List PyF)
    (h : conv_to_float rows i = .ok qs) : ∀ q ∈ qs, 0 < q.den := by
  induction rows generalizing qs with
  | nil =>
    simp only [conv_to_float] at h
    cases h
    simp
  | cons fields rest ih =>
    simp only [conv_to_float] at h
    by_cases hv : (fields.getD i "").length > 0
    · rw [if_pos hv] at h
      cases hp : pyFloat? (fields.getD i "") with
      | none => rw [hp] at h; exact absurd h (by simp)
      | some q =>
        rw [hp] at h
        cases hrest : conv_to_float rest i with
        | error e => rw [hrest] at h; exact absurd h (by simp)
        | ok qs' =>
          rw [hrest] at h
          cases h
          intro q' hq'
          rcases List.mem_cons.mp hq' with hc | hc
          · rw [hc]; exact pyFloat?_den_pos _ q hp
          · exact ih qs' hrest q' hc
    · rw [if_neg hv] at h
      exact ih qs h

theorem conv_to_float_error (rows : List (List String)) (i : ℕ) (e : PyErr)
    (h : conv_to_float rows i = .error e) :
    ∃ v ∈ nonEmptyCol rows i, pyFloat? v = none ∧ e = .systemExit (notNumericMsg i v) := by
  induction rows with
  | nil => simp [conv_to_float] at h
  | cons fields rest ih =>
    simp only [conv_to_float] at h
    by_cases hv : (fields.getD i "").length > 0
    · rw [if_pos hv] at h
      cases hp : pyFloat? (fields.getD i "") with
      | none =>
        rw [hp] at h
        cases h
        exact ⟨fields.getD i "", by rw [nonEmptyCol_cons, if_pos hv]; simp, hp, rfl⟩
      | some q =>
        rw [hp] at h
        cases hrest : conv_to_float rest i with
        | error e' =>
          rw [hrest] at h
          cases h
          obtain ⟨v, hvm, hvp, hve⟩ := ih hrest
          exact ⟨v, by rw [nonEmptyCol_cons, if_pos hv]; simp [hvm], hvp, hve⟩
        | ok qs => rw [hrest] at h; exact absurd h (by simp)
    · rw [if_neg hv] at h
      obtain ⟨v, hvm, hvp, hve⟩ := ih h
      exact ⟨v, by rw [nonEmptyCol_cons, if_neg hv]; simpa using hvm, hvp, hve⟩

theorem conv_to_float_ok_of_parse (rows : List (List String)) (i : ℕ)
    (h : ∀ v ∈ nonEmptyCol rows i, pyFloat? v ≠ none) :
    ∃ qs, conv_to_float rows i = .ok qs := by
  induction rows with
  | nil => exact ⟨[], rfl⟩
  | cons fields rest ih =>
    by_cases hv : (fields.getD i "").length > 0
    · have hp : pyFloat? (fields.getD i "") ≠ none :=
        h _ (by rw [nonEmptyCol_cons, if_pos hv]; simp)
      cases hpc : pyFloat? (fields.getD i "") with
      | none => exact absurd hpc hp
      | some q =>
        obtain ⟨qs, hqs⟩ := ih (fun v hvm =>
          h v (by rw [nonEmptyCol_cons, if_pos hv]; simp [hvm]))
        refine ⟨q :: qs, ?_⟩
        simp only [conv_to_float, if_pos hv, hpc, hqs]
    · obtain ⟨qs, hqs⟩ := ih (fun v hvm =>
        h v (by rw [nonEmptyCol_cons, if_neg hv]; simpa using hvm))
      refine ⟨qs, ?_⟩
      simp only [conv_to_float, if_neg hv, hqs]

end MergeDup

theorem getD_range (n i : ℕ) (h : i < n) : (List.range n).getD i 0 = i := by
  rw [List.getD_eq_getElem _ _ (by simpa using h)]
  simp

theorem dedup_length_eq_one {α : Type} [DecidableEq α] (l : List α) (d : α) :
    l.dedup.length = 1 ↔ l ≠ [] ∧ ∀ x ∈ l, x = l.headD d := by
  constructor
  · intro h
    obtain ⟨a, ha⟩ := List.length_eq_one.mp h
    have hmem : ∀ x ∈ l, x = a := by
      intro x hx
      have : x ∈ l.dedup := List.mem_dedup.mpr hx
      rw [ha] at this
      simpa using this
    have hne : l ≠ [] := by
      intro hc
      rw [hc] at ha
      simp [List.dedup] at ha
    refine ⟨hne, ?_⟩
    cases l with
    | nil => exact absurd rfl hne
    | cons x xs =>
      intro y hy
      rw [hmem y hy]
      simp [hmem x (by simp)]
  · rintro ⟨hne, hall⟩
    cases l with
    | nil => exact absurd rfl hne
    | cons x xs =>
      have hx : x = (x :: xs).headD d := by simp
      have hmem : ∀ y ∈ (x :: xs).dedup, y = x := by
        intro y hy
        have : y ∈ x :: xs := List.mem_dedup.mp hy
        rw [hall y this, ← hx]
      have hxd : x ∈ (x :: xs).dedup := List.mem_dedup.mpr (by simp)
      have hnd : (x :: xs).dedup.Nodup := List.nodup_dedup _
      cases hdd : (x :: xs).dedup with
      | nil => rw [hdd] at hxd; simp at hxd
      | cons y ys =>
        cases ys with
        | nil => simp
        | cons z zs =>
          rw [hdd] at hmem hnd
          have hy : y = x := hmem y (by simp)
          have hz : z = x := hmem z (by simp)
          rcases List.nodup_cons.mp hnd with ⟨hyn, _⟩
          exact absurd (by rw [hy, hz] : y = z) (fun hc => hyn (by simp [hc]))

namespace MergeDup

theorem merge_group_facts (keys : List ℕ) (a : Actions) (lines : List (List String))
    (w : ℕ) (out : List (List String)) (t : ℕ)
    (hw : ∀ r ∈ lines, r.length = w)
    (hok : merge keys a lines = .ok out)
    (ht : t < (group_by_key keys lines).length) :
    mergeGroup keys a ((group_by_key keys lines).getD t ("", [])).2 = .ok (out.getD t []) ∧
    (∀ r ∈ ((group_by_key keys lines).getD t ("", [])).2, r.length = w) ∧
    ((group_by_key keys lines).getD t ("", [])).2 ≠ [] := by
  have hmem : (group_by_key keys lines).getD t ("", []) ∈ group_by_key keys lines := by
    rw [List.getD_eq_getElem _ _ ht]
    exact List.getElem_mem _
  obtain ⟨_, hgrp⟩ := group_by_key_spec keys lines
  refine ⟨mapME_ok_getD _ _ _ hok t ht ("", []) [], ?_, group_by_key_ne_nil keys lines _ hmem⟩
  intro r hr
  apply hw
  rw [hgrp _ hmem] at hr
  exact List.mem_of_mem_filter hr

theorem merge_dup_field_eq (keys : List ℕ) (a : Actions) (lines : List (List String))
    (w : ℕ) (out : List (List String)) (t i : ℕ)
    (hw : ∀ r ∈ lines, r.length = w)
    (hok : merge keys a lines = .ok out)
    (ht : t < (group_by_key keys lines).length)
    (hdup : 2 ≤ ((group_by_key keys lines).getD t ("", [])).2.length)
    (hi : i < w) :
    (if i + 1 ∈ keys then
      Except.ok (ε := PyErr)
        ((((group_by_key keys lines).getD t ("", [])).2.headD []).getD i "")
    else if i + 1 ∈ a.chain then
      apply_action ((group_by_key keys lines).getD t ("", [])).2 i a
    else if (nonEmptyCol ((group_by_key keys lines).getD t ("", [])).2 i).dedup.length = 1 then
      .ok ((nonEmptyCol ((group_by_key keys lines).getD t ("", [])).2 i).headD "")
    else
      .ok (String.intercalate ","
        (nonEmptyCol ((group_by_key keys lines).getD t ("", [])).2 i)))
    = .ok ((out.getD t []).getD i "") := by
  obtain ⟨hmg, hlen, hne⟩ := merge_group_facts keys a lines w out t hw hok ht
  rw [mergeGroup, if_neg (by omega : ¬ ((group_by_key keys lines).getD t ("", [])).2.length = 1)]
    at hmg
  have hhl : (((group_by_key keys lines).getD t ("", [])).2.headD []).length = w := by
    cases hg2 : ((group_by_key keys lines).getD t ("", [])).2 with
    | nil => exact absurd hg2 hne
    | cons f0 rest =>
      simp only [List.headD_cons]
      exact hlen f0 (by rw [hg2]; simp)
  have hfi := mapME_ok_getD _ _ _ hmg i (by rw [List.length_range, hhl]; exact hi) 0 ""
  rw [getD_range _ _ (by rw [hhl]; exact hi)] at hfi
  exact hfi

/-- C3: every data row is grouped under the tab-joined composite key of
its key fields; the output has exactly one line per distinct key, in order
of first appearance; a row with a unique key is emitted unchanged; in a
merged line every key field takes the group's first row's value. -/
theorem mergeduplicates_grouping (keys : List ℕ) (a : Actions)
    (lines : List (List String)) (w : ℕ) (out : List (List String))
    (hw : ∀ r ∈ lines, r.length = w)
    (_hk : ∀ k ∈ keys, 1 ≤ k ∧ k ≤ w)
    (hok : merge keys a lines = .ok out) :
    out.length = (group_by_key keys lines).length ∧
    (group_by_key keys lines).map Prod.fst = firstDedup (lines.map (rowKey keys)) ∧
    (∀ r ∈ lines, ∃ g ∈ group_by_key keys lines, g.1 = rowKey keys r ∧ r ∈ g.2) ∧
    (∀ g ∈ group_by_key keys lines,
      g.2 = lines.filter (fun r => rowKey keys r = g.1)) ∧
    (∀ t, t < (group_by_key keys lines).length →
      ((group_by_key keys lines).getD t ("", [])).2.length = 1 →
      out.getD t [] = ((group_by_key keys lines).getD t ("", [])).2.headD []) ∧
    (∀ t, t < (group_by_key keys lines).length →
      2 ≤ ((group_by_key keys lines).getD t ("", [])).2.length →
      ∀ i, i < w → i + 1 ∈ keys →
        (out.getD t []).getD i "" =
          (((group_by_key keys lines).getD t ("", [])).2.headD []).getD i "") := by
  obtain ⟨hfst, hgrp⟩ := group_by_key_spec keys lines
  refine ⟨mapME_ok_length _ _ _ hok, hfst, ?_, hgrp, ?_, ?_⟩
  · -- every row belongs to the group of its key
    intro r hr
    have hkmem : rowKey keys r ∈ (group_by_key keys lines).map Prod.fst := by
      rw [hfst]
      exact (mem_firstDedup _ _).mpr (List.mem_map_of_mem _ hr)
    obtain ⟨g, hg, hge⟩ := List.mem_map.mp hkmem
    refine ⟨g, hg, hge, ?_⟩
    rw [hgrp g hg]
    exact List.mem_filter.mpr ⟨hr, by simp [hge]⟩
  · -- unique key: row emitted unchanged
    intro t ht h1
    have hmg := (merge_group_facts keys a lines w out t hw hok ht).1
    rw [mergeGroup, if_pos h1] at hmg
    exact (Except.ok.inj hmg).symm
  · -- merged line: key fields from the first row
    intro t ht hdup i hi hik
    have hfi := merge_dup_field_eq keys a lines w out t i hw hok ht hdup hi
    rw [if_pos hik] at hfi
    exact (Except.ok.inj hfi).symm

end MergeDup

namespace MergeDup

/-- C1: in a merged group, an action field's output value is the rendering
of the sum / mean / min / max of the field's non-empty values parsed as
floats; the mean divides by the number of non-empty values, and an
integral result is rendered without a fractional part. -/
theorem mergeduplicates_action_fields (keys : List ℕ) (a : Actions)
    (lines : List (List String)) (w : ℕ) (out : List (List String)) (t i : ℕ)
    (hw : ∀ r ∈ lines, r.length = w)
    (hkd : ∀ k ∈ keys, k ∉ a.chain)
    (hd1 : ∀ n ∈ a.sums, n ∉ a.means ++ a.mins ++ a.maxs)
    (hd2 : ∀ n ∈ a.means, n ∉ a.mins ++ a.maxs)
    (hd3 : ∀ n ∈ a.mins, n ∉ a.maxs)
    (hok : merge keys a lines = .ok out)
    (ht : t < (group_by_key keys lines).length)
    (hdup : 2 ≤ ((group_by_key keys lines).getD t ("", [])).2.length)
    (hi : i < w) (hact : i + 1 ∈ a.chain) :
    ∃ qs : List PyF,
      (nonEmptyCol ((group_by_key keys lines).getD t ("", [])).2 i).map pyFloat? =
        qs.map some ∧
      qs.length = (nonEmptyCol ((group_by_key keys lines).getD t ("", [])).2 i).length ∧
      (i + 1 ∈ a.sums →
        (out.getD t []).getD i "" = pyFloatStr (PyF.sumList qs) ∧
        (PyF.sumList qs).toRat = (qs.map PyF.toRat).sum) ∧
      (i + 1 ∈ a.means →
        qs ≠ [] ∧
        (out.getD t []).getD i "" =
          pyFloatStr ((PyF.sumList qs).div (PyF.ofInt (qs.length : ℤ))) ∧
        ((PyF.sumList qs).div (PyF.ofInt (qs.length : ℤ))).toRat =
          (qs.map PyF.toRat).sum / (qs.length : ℚ)) ∧
      (i + 1 ∈ a.mins →
        ∃ m, PyF.minList qs = some m ∧ (out.getD t []).getD i "" = pyFloatStr m ∧
          m ∈ qs ∧ ∀ q ∈ qs, m.toRat ≤ q.toRat) ∧
      (i + 1 ∈ a.maxs →
        ∃ m, PyF.maxList qs = some m ∧ (out.getD t []).getD i "" = pyFloatStr m ∧
          m ∈ qs ∧ ∀ q ∈ qs, q.toRat ≤ m.toRat) ∧
      (∀ v : PyF, 0 < v.den → v.toRat.den = 1 → pyFloatStr v = toString v.toRat.num) := by
  have hfi := merge_dup_field_eq keys a lines w out t i hw hok ht hdup hi
  have hknot : i + 1 ∉ keys := fun hc => hkd _ hc hact
  rw [if_neg hknot, if_pos hact] at hfi
  -- hfi : apply_action g.2 i a = .ok outv
  cases hcv : conv_to_float ((group_by_key keys lines).getD t ("", [])).2 i with
  | error e =>
    rw [apply_action, hcv] at hfi
    exact absurd hfi (by simp)
  | ok qs =>
    have hdens : ∀ q ∈ qs, 0 < q.den := conv_to_float_den_pos _ _ _ hcv
    rw [apply_action, hcv] at hfi
    dsimp only at hfi
    refine ⟨qs, conv_to_float_ok _ _ _ hcv, conv_to_float_ok_length _ _ _ hcv,
      ?_, ?_, ?_, ?_, fun v hv h1 => pyFloatStr_int v hv h1⟩
    · -- sum
      intro hsum
      have hnm : i + 1 ∉ a.means := fun hc => hd1 _ hsum (by simp [hc])
      rw [if_pos (List.mem_append.mpr (Or.inl hsum)), if_neg hnm] at hfi
      exact ⟨(Except.ok.inj hfi).symm, PyF.sumList_toRat qs hdens⟩
    · -- mean
      intro hmean
      rw [if_pos (List.mem_append.mpr (Or.inr hmean)), if_pos hmean] at hfi
      by_cases hlz : qs.length = 0
      · rw [if_pos hlz] at hfi
        exact absurd hfi (by simp)
      · rw [if_neg hlz] at hfi
        have hne : qs ≠ [] := fun hc => hlz (by simp [hc])
        refine ⟨hne, (Except.ok.inj hfi).symm, ?_⟩
        have hsd : 0 < (PyF.sumList qs).den := PyF.sumList_den_pos qs hdens
        have hlnz : ((qs.length : ℤ)) ≠ 0 := by
          simpa using hlz
        rw [PyF.div_toRat _ _ (ne_of_gt hsd) (by simp [PyF.ofInt]) (by simp [PyF.ofInt, hlnz]),
          PyF.sumList_toRat qs hdens, PyF.ofInt_toRat]
        norm_num
    · -- min
      intro hmin
      have hns : i + 1 ∉ a.sums := fun hc => hd1 _ hc (by simp [hmin])
      have hnm : i + 1 ∉ a.means := fun hc => hd2 _ hc (by simp [hmin])
      rw [if_neg (by
          intro hc
          rcases List.mem_append.mp hc with h | h
          · exact hns h
          · exact hnm h),
        if_pos hmin] at hfi
      have hne : qs ≠ [] := by
        intro hc
        rw [hc] at hfi
        exact absurd hfi (by simp [PyF.minList])
      obtain ⟨m, hmeq, hmmem, _, hmall⟩ := PyF.minList_spec qs hne hdens
      rw [hmeq] at hfi
      exact ⟨m, hmeq, (Except.ok.inj hfi).symm, hmmem, hmall⟩
    · -- max
      intro hmax
      have hns : i + 1 ∉ a.sums := fun hc => hd1 _ hc (by simp [hmax])
      have hnm : i + 1 ∉ a.means := fun hc => hd2 _ hc (by simp [hmax])
      have hnmin : i + 1 ∉ a.mins := fun hc => hd3 _ hc hmax
      rw [if_neg (by
          intro hc
          rcases List.mem_append.mp hc with h | h
          · exact hns h
          · exact hnm h),
        if_neg hnmin, if_pos hmax] at hfi
      have hne : qs ≠ [] := by
        intro hc
        rw [hc] at hfi
        exact absurd hfi (by simp [PyF.maxList])
      obtain ⟨m, hmeq, hmmem, _, hmall⟩ := PyF.maxList_spec qs hne hdens
      rw [hmeq] at hfi
      exact ⟨m, hmeq, (Except.ok.inj hfi).symm, hmmem, hmall⟩

end MergeDup

namespace MergeDup

/-- C2: in a merged group, a field that is neither a key nor an action
collapses to the single common value when all non-empty occurrences agree,
joins the non-empty occurrences with commas (in row order) otherwise, and
is empty when the field is empty in every row of the group. -/
theorem mergeduplicates_collapse_fields (keys : List ℕ) (a : Actions)
    (lines : List (List String)) (w : ℕ) (out : List (List String)) (t i : ℕ)
    (hw : ∀ r ∈ lines, r.length = w)
    (hok : merge keys a lines = .ok out)
    (ht : t < (group_by_key keys lines).length)
    (hdup : 2 ≤ ((group_by_key keys lines).getD t ("", [])).2.length)
    (hi : i < w) (hnk : i + 1 ∉ keys) (hna : i + 1 ∉ a.chain) :
    (nonEmptyCol ((group_by_key keys lines).getD t ("", [])).2 i = [] →
      (out.getD t []).getD i "" = "") ∧
    (nonEmptyCol ((group_by_key keys lines).getD t ("", [])).2 i ≠ [] →
      (∀ v ∈ nonEmptyCol ((group_by_key keys lines).getD t ("", [])).2 i,
        v = (nonEmptyCol ((group_by_key keys lines).getD t ("", [])).2 i).headD "") →
      (out.getD t []).getD i "" =
        (nonEmptyCol ((group_by_key keys lines).getD t ("", [])).2 i).headD "") ∧
    ((∃ v ∈ nonEmptyCol ((group_by_key keys lines).getD t ("", [])).2 i,
      ∃ u ∈ nonEmptyCol ((group_by_key keys lines).getD t ("", [])).2 i, v ≠ u) →
      (out.getD t []).getD i "" =
        String.intercalate ","
          (nonEmptyCol ((group_by_key keys lines).getD t ("", [])).2 i)) := by
  have hfi := merge_dup_field_eq keys a lines w out t i hw hok ht hdup hi
  rw [if_neg hnk, if_neg hna] at hfi
  refine ⟨?_, ?_, ?_⟩
  · intro hnil
    rw [hnil] at hfi
    rw [if_neg (by simp [List.dedup])] at hfi
    rw [← Except.ok.inj hfi]
    rfl
  · intro hne hall
    rw [if_pos ((dedup_length_eq_one _ "").mpr ⟨hne, hall⟩)] at hfi
    exact (Except.ok.inj hfi).symm
  · rintro ⟨v, hv, u, hu, hvu⟩
    rw [if_neg (by
        intro hc
        obtain ⟨_, hall⟩ := (dedup_length_eq_one _ "").mp hc
        exact hvu ((hall v hv).trans (hall u hu).symm))] at hfi
    exact (Except.ok.inj hfi).symm

end MergeDup

namespace MergeDup

/-- Some group with at least two rows has, in one of the action fields, a
non-empty value that does not parse as a float.  (Field numbers `n` are
1-based, as on the command line.) -/
def hasBadActionValue (keys : List ℕ) (a : Actions) (lines : List (List String)) : Prop :=
  ∃ g ∈ group_by_key keys lines, 2 ≤ g.2.length ∧
    ∃ n ∈ a.chain, ∃ r ∈ g.2,
      (r.getD (n - 1) "").length > 0 ∧ pyFloat? (r.getD (n - 1) "") = none

instance (keys : List ℕ) (a : Actions) (lines : List (List String)) :
    Decidable (hasBadActionValue keys a lines) := by
  unfold hasBadActionValue
  infer_instance

/-- Did the computation end in `SystemExit`? -/
def isSystemExit {α : Type} : Except PyErr α → Bool
  | .error (.systemExit _) => true
  | _ => false

theorem merge_error_analysis (keys : List ℕ) (a : Actions)
    (lines : List (List String)) (w : ℕ) (e : PyErr)
    (hw : ∀ r ∈ lines, r.length = w)
    (hprov : ∀ g ∈ group_by_key keys lines, 2 ≤ g.2.length →
      ∀ n ∈ a.means ++ a.mins ++ a.maxs, n - 1 < w → nonEmptyCol g.2 (n - 1) ≠ [])
    (herr : merge keys a lines = .error e) :
    ∃ i v, e = .systemExit (notNumericMsg i v) ∧ (v : String).length > 0 ∧
      pyFloat? v = none ∧
      ∃ g ∈ group_by_key keys lines, 2 ≤ g.2.length ∧ i + 1 ∈ a.chain ∧
        ∃ r ∈ g.2, r.getD i "" = v := by
  obtain ⟨g, hg, hge⟩ := mapME_error_mem _ _ _ herr
  obtain ⟨_, hgrp⟩ := group_by_key_spec keys lines
  have hsub : ∀ r ∈ g.2, r ∈ lines := by
    rw [hgrp g hg]
    exact fun r hr => List.mem_of_mem_filter hr
  have hglen : ∀ r ∈ g.2, r.length = w := fun r hr => hw r (hsub r hr)
  have hne : g.2 ≠ [] := group_by_key_ne_nil keys lines g hg
  have hn1 : g.2.length ≠ 1 := by
    intro hc
    rw [mergeGroup, if_pos hc] at hge
    exact absurd hge (by simp)
  have hdup : 2 ≤ g.2.length := by
    have h0 : g.2.length ≠ 0 := fun hc => hne (List.length_eq_zero.mp hc)
    omega
  have hhl : (g.2.headD []).length = w := by
    cases hg2 : g.2 with
    | nil => exact absurd hg2 hne
    | cons f0 rest =>
      simp only [List.headD_cons]
      exact hglen f0 (by rw [hg2]; simp)
  rw [mergeGroup, if_neg hn1] at hge
  obtain ⟨i, hi, hie⟩ := mapME_error_mem _ _ _ hge
  have hiw : i < w := by
    rw [← hhl]
    exact List.mem_range.mp hi
  -- the key branch and the collapse branch cannot raise
  by_cases hik : i + 1 ∈ keys
  · rw [if_pos hik] at hie
    exact absurd hie (by simp)
  rw [if_neg hik] at hie
  by_cases hia : i + 1 ∈ a.chain
  swap
  · rw [if_neg hia] at hie
    by_cases hdd : (nonEmptyCol g.2 i).dedup.length = 1
    · rw [if_pos hdd] at hie
      exact absurd hie (by simp)
    · rw [if_neg hdd] at hie
      exact absurd hie (by simp)
  rw [if_pos hia] at hie
  -- the error comes from apply_action
  cases hcv : conv_to_float g.2 i with
  | error e' =>
    rw [apply_action, hcv] at hie
    have he : e = e' := (Except.error.inj hie).symm
    obtain ⟨v, hvm, hvp, hve⟩ := conv_to_float_error _ _ _ hcv
    obtain ⟨r, hr, hrv⟩ : ∃ r ∈ g.2, r.getD i "" = v := by
      unfold nonEmptyCol at hvm
      obtain ⟨u, hum, hue⟩ := List.mem_map.mp (List.mem_of_mem_filter hvm)
      exact ⟨u, hum, hue⟩
    have hvlen : v.length > 0 := by
      have := List.of_mem_filter hvm
      simpa using this
    exact ⟨i, v, by rw [he, hve], hvlen, hvp, g, hg, hdup, hia, r, hr, hrv⟩
  | ok qs =>
    rw [apply_action, hcv] at hie
    dsimp only at hie
    have hqlen : qs.length = (nonEmptyCol g.2 i).length :=
      conv_to_float_ok_length _ _ _ hcv
    have hprovi : ∀ n ∈ a.means ++ a.mins ++ a.maxs, n - 1 < w →
        nonEmptyCol g.2 (n - 1) ≠ [] := hprov g hg hdup
    by_cases hsm : i + 1 ∈ a.sums ++ a.means
    · rw [if_pos hsm] at hie
      by_cases hm : i + 1 ∈ a.means
      · rw [if_pos hm] at hie
        by_cases hz : qs.length = 0
        · exfalso
          have hcol : nonEmptyCol g.2 i ≠ [] := by
            have := hprovi (i + 1) (by simp [hm]) (by simpa using hiw)
            simpa using this
          rw [hqlen] at hz
          exact hcol (List.length_eq_zero.mp hz)
        · rw [if_neg hz] at hie
          exact absurd hie (by simp)
      · rw [if_neg hm] at hie
        exact absurd hie (by simp)
    · rw [if_neg hsm] at hie
      by_cases hmi : i + 1 ∈ a.mins
      · rw [if_pos hmi] at hie
        have hcol : nonEmptyCol g.2 i ≠ [] := by
          have := hprovi (i + 1) (by simp [hmi]) (by simpa using hiw)
          simpa using this
        have hqne : qs ≠ [] := by
          intro hc
          rw [hc] at hqlen
          exact hcol (List.length_eq_zero.mp hqlen.symm)
        obtain ⟨m, hmeq, _, _, _⟩ :=
          PyF.minList_spec qs hqne (conv_to_float_den_pos _ _ _ hcv)
        rw [hmeq] at hie
        exact absurd hie (by simp)
      · rw [if_neg hmi] at hie
        by_cases hma : i + 1 ∈ a.maxs
        · rw [if_pos hma] at hie
          have hcol : nonEmptyCol g.2 i ≠ [] := by
            have := hprovi (i + 1) (by simp [hma]) (by simpa using hiw)
            simpa using this
          have hqne : qs ≠ [] := by
            intro hc
            rw [hc] at hqlen
            exact hcol (List.length_eq_zero.mp hqlen.symm)
          obtain ⟨m, hmeq, _, _, _⟩ :=
            PyF.maxList_spec qs hqne (conv_to_float_den_pos _ _ _ hcv)
          rw [hmeq] at hie
          exact absurd hie (by simp)
        · exfalso
          rcases List.mem_append.mp hia with h | h
          · rcases List.mem_append.mp h with h' | h'
            · rcases List.mem_append.mp h' with h'' | h''
              · exact hsm (List.mem_append.mpr (Or.inl h''))
              · exact hsm (List.mem_append.mpr (Or.inr h''))
            · exact hmi h'
          · exact hma h

end MergeDup

namespace MergeDup

theorem merge_ok_no_bad (keys : List ℕ) (a : Actions) (lines : List (List String))
    (w : ℕ) (out : List (List String))
    (hw : ∀ r ∈ lines, r.length = w)
    (hkd : ∀ k ∈ keys, k ∉ a.chain)
    (ha1 : ∀ n ∈ a.chain, 1 ≤ n)
    (hok : merge keys a lines = .ok out) : ¬ hasBadActionValue keys a lines := by
  rintro ⟨g, hg, hdup, n, hn, r, hr, hvlen, hvp⟩
  obtain ⟨t, htl, hte⟩ := List.mem_iff_getElem.mp hg
  have hgd : (group_by_key keys lines).getD t ("", []) = g := by
    rw [List.getD_eq_getElem _ _ htl, hte]
  have hrlen : r.length = w := by
    obtain ⟨_, hgrp⟩ := group_by_key_spec keys lines
    apply hw
    have hgf := hgrp g hg
    rw [hgf] at hr
    exact List.mem_of_mem_filter hr
  have hiw : n - 1 < w := by
    by_contra hc
    push_neg at hc
    rw [List.getD_eq_default _ _ (by omega : r.length ≤ n - 1)] at hvlen
    simp at hvlen
  have hn1 : n - 1 + 1 = n := by
    have := ha1 n hn
    omega
  have hfi := merge_dup_field_eq keys a lines w out t (n - 1) hw hok htl
    (by rw [hgd]; exact hdup) hiw
  rw [hgd, hn1, if_neg (fun hc => hkd _ hc hn), if_pos hn] at hfi
  cases hcv : conv_to_float g.2 (n - 1) with
  | error e =>
    rw [apply_action, hcv] at hfi
    exact absurd hfi (by simp)
  | ok qs =>
    have hmap := conv_to_float_ok _ _ _ hcv
    have hvmem : r.getD (n - 1) "" ∈ nonEmptyCol g.2 (n - 1) := by
      unfold nonEmptyCol
      exact List.mem_filter.mpr ⟨List.mem_map_of_mem _ hr, by simpa using hvlen⟩
    have hpm : pyFloat? (r.getD (n - 1) "") ∈ (nonEmptyCol g.2 (n - 1)).map pyFloat? :=
      List.mem_map_of_mem _ hvmem
    rw [hmap] at hpm
    obtain ⟨q, _, hqe⟩ := List.mem_map.mp hpm
    rw [hvp] at hqe
    exact absurd hqe (by simp)

/-- C9 (amended): assuming every merged group has at least one non-empty
value in each mean/min/max field (ruling out the `ZeroDivisionError` /
`ValueError` crashes on empty aggregates), the program raises `SystemExit`
with an `error: field N is not numeric (...)` message exactly when some
duplicated group has a non-empty action-field value that does not parse as
a float; otherwise it completes, and rows with unique keys are printed
unchanged whatever their action fields contain. -/
theorem mergeduplicates_numeric_errors (keys : List ℕ) (a : Actions)
    (lines : List (List String)) (w : ℕ)
    (hw : ∀ r ∈ lines, r.length = w)
    (hkd : ∀ k ∈ keys, k ∉ a.chain)
    (ha1 : ∀ n ∈ a.chain, 1 ≤ n)
    (hprov : ∀ g ∈ group_by_key keys lines, 2 ≤ g.2.length →
      ∀ n ∈ a.means ++ a.mins ++ a.maxs, n - 1 < w → nonEmptyCol g.2 (n - 1) ≠ []) :
    (hasBadActionValue keys a lines ↔
      ∃ i v, merge keys a lines = .error (.systemExit (notNumericMsg i v)) ∧
        (v : String).length > 0 ∧ pyFloat? v = none) ∧
    (¬ hasBadActionValue keys a lines → ∃ out, merge keys a lines = .ok out) ∧
    (∀ out, merge keys a lines = .ok out →
      ∀ t, t < (group_by_key keys lines).length →
        ((group_by_key keys lines).getD t ("", [])).2.length = 1 →
        out.getD t [] = ((group_by_key keys lines).getD t ("", [])).2.headD []) := by
  refine ⟨⟨?_, ?_⟩, ?_, ?_⟩
  · intro hbad
    cases hm : merge keys a lines with
    | ok out => exact absurd hbad (merge_ok_no_bad keys a lines w out hw hkd ha1 hm)
    | error e =>
      obtain ⟨i, v, he, hvl, hvp, _⟩ := merge_error_analysis keys a lines w e hw hprov hm
      exact ⟨i, v, congrArg Except.error he, hvl, hvp⟩
  · rintro ⟨i, v, hm, _, _⟩
    obtain ⟨i', v', _, hvl', hvp', g, hg, hdup, hia, r, hr, hrv⟩ :=
      merge_error_analysis keys a lines w _ hw hprov hm
    exact ⟨g, hg, hdup, i' + 1, hia, r, hr,
      by simp only [Nat.add_sub_cancel]; rw [hrv]; exact hvl',
      by simp only [Nat.add_sub_cancel]; rw [hrv]; exact hvp'⟩
  · intro hnb
    cases hm : merge keys a lines with
    | ok out => exact ⟨out, rfl⟩
    | error e =>
      obtain ⟨i, v, _, hvl, hvp, g, hg, hdup, hia, r, hr, hrv⟩ :=
        merge_error_analysis keys a lines w e hw hprov hm
      exact absurd ⟨g, hg, hdup, i + 1, hia, r, hr,
        by simp only [Nat.add_sub_cancel]; rw [hrv]; exact hvl,
        by simp only [Nat.add_sub_cancel]; rw [hrv]; exact hvp⟩ hnb
  · intro out hok t ht h1
    have hmg := (merge_group_facts keys a lines w out t hw hok ht).1
    rw [mergeGroup, if_pos h1] at hmg
    exact (Except.ok.inj hmg).symm

/-- C9 counterexample: with key field 1 and `--mean 2`, the input rows
`a./a./b.x/b.y` (field 2 empty for the `a` group) make the program crash
with `ZeroDivisionError` on the first group, not `SystemExit`, although
the `b` group does contain a non-numeric value in the mean field — so the
claimed "if and only if" is false as stated. -/
theorem mergeduplicates_numeric_iff_counterexample :
    ¬ (hasBadActionValue [1] ⟨[], [2], [], []⟩
          [["a", ""], ["a", ""], ["b", "x"], ["b", "y"]] ↔
        isSystemExit (merge [1] ⟨[], [2], [], []⟩
          [["a", ""], ["a", ""], ["b", "x"], ["b", "y"]]) = true) := by
  decide

end MergeDup

theorem length_eq_dedup_length_iff {α : Type} [DecidableEq α] (l : List α) :
    l.length = l.dedup.length ↔ l.Nodup := by
  constructor
  · intro h
    have hs : l.dedup.Sublist l := List.dedup_sublist l
    have heq : l.dedup = l := hs.eq_of_length h.symm
    rw [← heq]
    exact List.nodup_dedup l
  · intro h
    rw [List.dedup_eq_self.mpr h]

namespace MergeDup

/-- C6 (amended): the CLI validation passes exactly when no field number is
both a key and an action, no field number carries more than one action
(including the same action twice), and — additionally, which the original
claim missed — no field number is repeated among the keys. -/
theorem mergeduplicates_validation (keys sums means mins maxs : List ℤ) :
    validateArgs keys sums means mins maxs = true ↔
      ((∀ f ∈ keys, f ∉ sums ++ means ++ mins ++ maxs) ∧
        (sums ++ means ++ mins ++ maxs).Nodup ∧
        keys.Nodup) := by
  unfold validateArgs
  rw [decide_eq_true_iff]
  simp only [length_eq_dedup_length_iff, List.nodup_append, List.mem_append]
  constructor
  · rintro ⟨⟨hkn, hsn, hks⟩, ⟨_, hmn, hkm⟩, ⟨_, hmin, hkmi⟩, ⟨_, hman, hkma⟩, hcat⟩
    refine ⟨?_, hcat, hkn⟩
    intro f hf hc
    rcases hc with ((h | h) | h) | h
    · exact hks hf h
    · exact hkm hf h
    · exact hkmi hf h
    · exact hkma hf h
  · rintro ⟨hdisj, hcat, hkn⟩
    have hsn : sums.Nodup := hcat.1.1.1
    have hmn : means.Nodup := hcat.1.1.2.1
    have hmin : mins.Nodup := hcat.1.2.1
    have hman : maxs.Nodup := hcat.2.1
    refine ⟨⟨hkn, hsn, ?_⟩, ⟨hkn, hmn, ?_⟩, ⟨hkn, hmin, ?_⟩, ⟨hkn, hman, ?_⟩, hcat⟩
    · exact fun f hf hc => hdisj f hf (Or.inl (Or.inl (Or.inl hc)))
    · exact fun f hf hc => hdisj f hf (Or.inl (Or.inl (Or.inr hc)))
    · exact fun f hf hc => hdisj f hf (Or.inl (Or.inr hc))
    · exact fun f hf hc => hdisj f hf (Or.inr hc)

/-- C6 counterexample: repeating a key field (`-k 1 -k 1`) involves no
key/action overlap and no repeated action, so the claim says validation
passes, but the code rejects it. -/
theorem mergeduplicates_validation_counterexample :
    validateArgs [1, 1] [] [] [] [] = false ∧
    (∀ f ∈ ([1, 1] : List ℤ), f ∉ (([] : List ℤ) ++ [] ++ [] ++ [])) ∧
    (([] : List ℤ) ++ [] ++ [] ++ []).Nodup := by
  decide

end MergeDup

theorem mergeduplicates_action_fields_witness :
    MergeDup.merge [1] ⟨[3], [4], [], []⟩
        [["a", "b", "1", "2"], ["a", "c", "3", "4"], ["d", "e", "5", "6"]] =
      .ok [["a", "b,c", "4", "3"], ["d", "e", "5", "6"]] ∧
    (∃ qs : List PyF,
      (MergeDup.nonEmptyCol [["a", "b", "1", "2"], ["a", "c", "3", "4"]] 2).map pyFloat? =
        qs.map some ∧
      qs.length = (MergeDup.nonEmptyCol [["a", "b", "1", "2"], ["a", "c", "3", "4"]] 2).length ∧
      ((3 : ℕ) ∈ [(3 : ℕ)] →
        ("4" : String) = pyFloatStr (PyF.sumList qs) ∧
        (PyF.sumList qs).toRat = (qs.map PyF.toRat).sum) ∧
      ((3 : ℕ) ∈ [(4 : ℕ)] →
        qs ≠ [] ∧
        ("4" : String) = pyFloatStr ((PyF.sumList qs).div (PyF.ofInt (qs.length : ℤ))) ∧
        ((PyF.sumList qs).div (PyF.ofInt (qs.length : ℤ))).toRat =
          (qs.map PyF.toRat).sum / (qs.length : ℚ)) ∧
      ((3 : ℕ) ∈ ([] : List ℕ) →
        ∃ m, PyF.minList qs = some m ∧ ("4" : String) = pyFloatStr m ∧
          m ∈ qs ∧ ∀ q ∈ qs, m.toRat ≤ q.toRat) ∧
      ((3 : ℕ) ∈ ([] : List ℕ) →
        ∃ m, PyF.maxList qs = some m ∧ ("4" : String) = pyFloatStr m ∧
          m ∈ qs ∧ ∀ q ∈ qs, q.toRat ≤ m.toRat) ∧
      (∀ v : PyF, 0 < v.den → v.toRat.den = 1 → pyFloatStr v = toString v.toRat.num)) :=
  ⟨rfl,
    MergeDup.mergeduplicates_action_fields [1] ⟨[3], [4], [], []⟩
      [["a", "b", "1", "2"], ["a", "c", "3", "4"], ["d", "e", "5", "6"]] 4
      [["a", "b,c", "4", "3"], ["d", "e", "5", "6"]] 0 2
      (by decide) (by decide) (by decide) (by decide) (by decide) rfl
      (by decide) (by decide) (by decide) (by decide)⟩

theorem mergeduplicates_collapse_fields_witness :
    MergeDup.merge [1] ⟨[3], [4], [], []⟩
        [["a", "b", "1", "2"], ["a", "c", "3", "4"], ["d", "e", "5", "6"]] =
      .ok [["a", "b,c", "4", "3"], ["d", "e", "5", "6"]] ∧
    ((MergeDup.nonEmptyCol [["a", "b", "1", "2"], ["a", "c", "3", "4"]] 1 = [] →
      ("b,c" : String) = "") ∧
    (MergeDup.nonEmptyCol [["a", "b", "1", "2"], ["a", "c", "3", "4"]] 1 ≠ [] →
      (∀ v ∈ MergeDup.nonEmptyCol [["a", "b", "1", "2"], ["a", "c", "3", "4"]] 1,
        v = (MergeDup.nonEmptyCol [["a", "b", "1", "2"], ["a", "c", "3", "4"]] 1).headD "") →
      ("b,c" : String) =
        (MergeDup.nonEmptyCol [["a", "b", "1", "2"], ["a", "c", "3", "4"]] 1).headD "") ∧
    ((∃ v ∈ MergeDup.nonEmptyCol [["a", "b", "1", "2"], ["a", "c", "3", "4"]] 1,
      ∃ u ∈ MergeDup.nonEmptyCol [["a", "b", "1", "2"], ["a", "c", "3", "4"]] 1, v ≠ u) →
      ("b,c" : String) =
        String.intercalate ","
          (MergeDup.nonEmptyCol [["a", "b", "1", "2"], ["a", "c", "3", "4"]] 1))) :=
  ⟨rfl,
    MergeDup.mergeduplicates_collapse_fields [1] ⟨[3], [4], [], []⟩
      [["a", "b", "1", "2"], ["a", "c", "3", "4"], ["d", "e", "5", "6"]] 4
      [["a", "b,c", "4", "3"], ["d", "e", "5", "6"]] 0 1
      (by decide) rfl (by decide) (by decide) (by decide) (by decide) (by decide)⟩

theorem mergeduplicates_grouping_witness :
    MergeDup.merge [1] ⟨[3], [4], [], []⟩
        [["a", "b", "1", "2"], ["a", "c", "3", "4"], ["d", "e", "5", "6"]] =
      .ok [["a", "b,c", "4", "3"], ["d", "e", "5", "6"]] ∧
    (([["a", "b,c", "4", "3"], ["d", "e", "5", "6"]] : List (List String)).length =
      (MergeDup.group_by_key [1]
        [["a", "b", "1", "2"], ["a", "c", "3", "4"], ["d", "e", "5", "6"]]).length ∧
    (MergeDup.group_by_key [1]
        [["a", "b", "1", "2"], ["a", "c", "3", "4"], ["d", "e", "5", "6"]]).map Prod.fst =
      firstDedup ([["a", "b", "1", "2"], ["a", "c", "3", "4"], ["d", "e", "5", "6"]].map
        (MergeDup.rowKey [1])) ∧
    (∀ r ∈ [["a", "b", "1", "2"], ["a", "c", "3", "4"], ["d", "e", "5", "6"]],
      ∃ g ∈ MergeDup.group_by_key [1]
        [["a", "b", "1", "2"], ["a", "c", "3", "4"], ["d", "e", "5", "6"]],
        g.1 = MergeDup.rowKey [1] r ∧ r ∈ g.2) ∧
    (∀ g ∈ MergeDup.group_by_key [1]
        [["a", "b", "1", "2"], ["a", "c", "3", "4"], ["d", "e", "5", "6"]],
      g.2 = [["a", "b", "1", "2"], ["a", "c", "3", "4"], ["d", "e", "5", "6"]].filter
        (fun r => MergeDup.rowKey [1] r = g.1)) ∧
    (∀ t, t < (MergeDup.group_by_key [1]
        [["a", "b", "1", "2"], ["a", "c", "3", "4"], ["d", "e", "5", "6"]]).length →
      ((MergeDup.group_by_key [1]
        [["a", "b", "1", "2"], ["a", "c", "3", "4"], ["d", "e", "5", "6"]]).getD t
          ("", [])).2.length = 1 →
      ([["a", "b,c", "4", "3"], ["d", "e", "5", "6"]] : List (List String)).getD t [] =
        ((MergeDup.group_by_key [1]
          [["a", "b", "1", "2"], ["a", "c", "3", "4"], ["d", "e", "5", "6"]]).getD t
            ("", [])).2.headD []) ∧
    (∀ t, t < (MergeDup.group_by_key [1]
        [["a", "b", "1", "2"], ["a", "c", "3", "4"], ["d", "e", "5", "6"]]).length →
      2 ≤ ((MergeDup.group_by_key [1]
        [["a", "b", "1", "2"], ["a", "c", "3", "4"], ["d", "e", "5", "6"]]).getD t
          ("", [])).2.length →
      ∀ i, i < 4 → i + 1 ∈ [1] →
        (([["a", "b,c", "4", "3"], ["d", "e", "5", "6"]] : List (List String)).getD t
            []).getD i "" =
          (((MergeDup.group_by_key [1]
            [["a", "b", "1", "2"], ["a", "c", "3", "4"], ["d", "e", "5", "6"]]).getD t
              ("", [])).2.headD []).getD i "")) :=
  ⟨rfl,
    MergeDup.mergeduplicates_grouping [1] ⟨[3], [4], [], []⟩
      [["a", "b", "1", "2"], ["a", "c", "3", "4"], ["d", "e", "5", "6"]] 4
      [["a", "b,c", "4", "3"], ["d", "e", "5", "6"]]
      (by decide) (by decide) rfl⟩

theorem mergeduplicates_numeric_errors_witness :
    MergeDup.merge [1] ⟨[3], [4], [], []⟩
        [["a", "b", "1", "2"], ["a", "c", "3", "4"], ["d", "e", "5", "6"]] =
      .ok [["a", "b,c", "4", "3"], ["d", "e", "5", "6"]] ∧
    ((MergeDup.hasBadActionValue [1] ⟨[3], [4], [], []⟩
        [["a", "b", "1", "2"], ["a", "c", "3", "4"], ["d", "e", "5", "6"]] ↔
      ∃ i v, MergeDup.merge [1] ⟨[3], [4], [], []⟩
          [["a", "b", "1", "2"], ["a", "c", "3", "4"], ["d", "e", "5", "6"]] =
        .error (.systemExit (MergeDup.notNumericMsg i v)) ∧
        (v : String).length > 0 ∧ pyFloat? v = none) ∧
    (¬ MergeDup.hasBadActionValue [1] ⟨[3], [4], [], []⟩
        [["a", "b", "1", "2"], ["a", "c", "3", "4"], ["d", "e", "5", "6"]] →
      ∃ out, MergeDup.merge [1] ⟨[3], [4], [], []⟩
        [["a", "b", "1", "2"], ["a", "c", "3", "4"], ["d", "e", "5", "6"]] = .ok out) ∧
    (∀ out, MergeDup.merge [1] ⟨[3], [4], [], []⟩
        [["a", "b", "1", "2"], ["a", "c", "3", "4"], ["d", "e", "5", "6"]] = .ok out →
      ∀ t, t < (MergeDup.group_by_key [1]
        [["a", "b", "1", "2"], ["a", "c", "3", "4"], ["d", "e", "5", "6"]]).length →
        ((MergeDup.group_by_key [1]
          [["a", "b", "1", "2"], ["a", "c", "3", "4"], ["d", "e", "5", "6"]]).getD t
            ("", [])).2.length = 1 →
        out.getD t [] = ((MergeDup.group_by_key [1]
          [["a", "b", "1", "2"], ["a", "c", "3", "4"], ["d", "e", "5", "6"]]).getD t
            ("", [])).2.headD [])) :=
  ⟨rfl,
    MergeDup.mergeduplicates_numeric_errors [1] ⟨[3], [4], [], []⟩
      [["a", "b", "1", "2"], ["a", "c", "3", "4"], ["d", "e", "5", "6"]] 4
      (by decide) (by decide) (by decide) (by decide)⟩

/-! ## `removesuperfluouscols.py` -/

namespace RemoveCols

/-- `drop_cols.add(i)` on the Python `set`, modelled as a duplicate-free
list (membership is all the code observes, besides one sorted traversal). -/
def setInsert (s : List ℕ) (x : ℕ) : List ℕ := if x ∈ s then s else s ++ [x]

/-- `_get_file_as_cols` (lines 83-92): build the column list; the first
line opens one column per field, later lines `zip`-append (extra fields of
a long line are ignored, extra columns of a short line stay untouched). -/
def get_file_as_cols (lines : List (List String)) : List (List String) :=
  lines.foldl
    (fun data fields =>
      if data.isEmpty then fields.map (fun f => [f])
      else (data.zipWith (fun d f => d ++ [f]) fields) ++ data.drop fields.length)
    []

/-- `_get_single_value_cols` (lines 95-100): flag columns with one distinct
value (`len(set(col)) == 1`). -/
def get_single_value_cols (data : List (List String)) (dropCols : List ℕ) : List ℕ :=
  data.enum.foldl
    (fun dc ic => if ic.2.dedup.length = 1 then setInsert dc ic.1 else dc) dropCols

/-- `_get_dupe_cols` (lines 103-111): flag every column equal to a column
with a smaller index. -/
def get_dupe_cols (data : List (List String)) (dropCols : List ℕ) : List ℕ :=
  data.enum.foldl
    (fun dc p =>
      data.enum.foldl
        (fun dc2 q =>
          if q.1 ≤ p.1 then dc2
          else if p.2 = q.2 then setInsert dc2 q.1 else dc2)
        dc)
    dropCols

/-- `sorted(drop_cols, reverse=True)`. -/
def sortDescNat (l : List ℕ) : List ℕ := pySorted (fun a b => decide (b < a)) l

/-- `_remove_cols` (lines 114-131), data part: delete the flagged columns
from highest index down (the log messages and header edits are elided). -/
def remove_cols (data : List (List String)) (dropCols : List ℕ) : List (List String) :=
  (sortDescNat dropCols).foldl (fun d i => d.eraseIdx i) data

/-- The combined flagging pass of `remove` (lines 53-57). -/
def dropSet (data : List (List String)) : List ℕ :=
  get_dupe_cols data (get_single_value_cols data [])

/-- The `data` variable of `remove` after `_remove_cols`: the surviving
columns. -/
def survivors (lines : List (List String)) : List (List String) :=
  remove_cols (get_file_as_cols lines) (dropSet (get_file_as_cols lines))

/-- `remove` (lines 39-74), from pre-split data lines to printed rows:
`range(len(data[0]))` on an empty surviving-column list raises
`IndexError`, and each `col[i]` is a checked access. -/
def removeRun (lines : List (List String)) : Except PyErr (List (List String)) :=
  if (survivors lines).isEmpty then .error .indexError
  else
    mapME
      (fun i => mapME
        (fun col => if h : i < col.length then .ok (col.get ⟨i, h⟩) else .error .indexError)
        (survivors lines))
      (List.range ((survivors lines).headD []).length)

/-- The columns of index not in `bad`, counting from `n`: the reference
form that `remove_cols` is proved to compute. -/
def keepCols {α : Type} (bad : List ℕ) : ℕ → List α → List α
  | _, [] => []
  | n, c :: cs => if n ∈ bad then keepCols bad (n + 1) cs else c :: keepCols bad (n + 1) cs

/-- The transpose of a rectangular table of width `w`. -/
def colsSpec (lines : List (List String)) (w : ℕ) : List (List String) :=
  (List.range w).map (fun j => lines.map (fun r => r.getD j ""))

theorem keepCols_congr {α : Type} (l : List α) :
    ∀ (n : ℕ) (bad1 bad2 : List ℕ), (∀ j, n ≤ j → (j ∈ bad1 ↔ j ∈ bad2)) →
      keepCols bad1 n l = keepCols bad2 n l := by
  induction l with
  | nil => intro n bad1 bad2 _; rfl
  | cons c cs ih =>
    intro n bad1 bad2 h
    have hn : n ∈ bad1 ↔ n ∈ bad2 := h n (le_refl n)
    have hrest := ih (n + 1) bad1 bad2 (fun j hj => h j (by omega))
    by_cases hc : n ∈ bad1
    · rw [keepCols, if_pos hc, keepCols, if_pos (hn.mp hc), hrest]
    · rw [keepCols, if_neg hc, keepCols, if_neg (fun hb => hc (hn.mpr hb)), hrest]

theorem keepCols_above {α : Type} (l : List α) :
    ∀ (n : ℕ) (bad : List ℕ), (∀ x ∈ bad, x < n) → keepCols bad n l = l := by
  induction l with
  | nil => intro n bad _; rfl
  | cons c cs ih =>
    intro n bad h
    have hc : n ∉ bad := fun hb => absurd (h n hb) (by omega)
    rw [keepCols, if_neg hc, ih (n + 1) bad (fun x hx => by have := h x hx; omega)]

theorem keepCols_eraseIdx {α : Type} (data : List α) :
    ∀ (d n : ℕ) (bad : List ℕ), (∀ x ∈ bad, x < d + n) →
      keepCols bad n (data.eraseIdx d) = keepCols ((d + n) :: bad) n data := by
  induction data with
  | nil => intro d n bad _; rfl
  | cons c cs ih =>
    intro d n bad h
    cases d with
    | zero =>
      have h1 : keepCols bad n cs = cs := keepCols_above cs n bad (by simpa using h)
      have h2 : n ∈ (0 + n) :: bad := by simp
      rw [show (c :: cs).eraseIdx 0 = cs from rfl, h1, keepCols, if_pos h2]
      exact (keepCols_above cs (n + 1) ((0 + n) :: bad) (by
        intro x hx
        rcases List.mem_cons.mp hx with hc | hc
        · omega
        · have := h x hc; omega)).symm
    | succ d' =>
      have hd : d' + 1 + n ≠ n := by omega
      have hbranch : n ∈ bad ↔ n ∈ (d' + 1 + n) :: bad := by
        constructor
        · intro hb; exact List.mem_cons_of_mem _ hb
        · intro hb
          rcases List.mem_cons.mp hb with hc | hc
          · exact absurd hc.symm hd
          · exact hc
      have hih := ih d' (n + 1) bad (fun x hx => by have := h x hx; omega)
      have heq : d' + (n + 1) = d' + 1 + n := by omega
      rw [heq] at hih
      rw [show (c :: cs).eraseIdx (d' + 1) = c :: cs.eraseIdx d' from rfl]
      by_cases hc : n ∈ bad
      · rw [keepCols, if_pos hc, keepCols, if_pos (hbranch.mp hc), hih]
      · rw [keepCols, if_neg hc, keepCols, if_neg (fun hb => hc (hbranch.mpr hb)), hih]

theorem foldl_eraseIdx_keepCols {α : Type} (ds : List ℕ) :
    ∀ (data : List α), ds.Pairwise (fun a b => b < a) →
      ds.foldl (fun d i => d.eraseIdx i) data = keepCols ds 0 data := by
  induction ds with
  | nil => intro data _; exact (keepCols_above data 0 [] (by simp)).symm
  | cons d ds' ih =>
    intro data hp
    rcases List.pairwise_cons.mp hp with ⟨hall, hp'⟩
    rw [List.foldl_cons, ih (data.eraseIdx d) hp']
    have := keepCols_eraseIdx data d 0 ds' (by
      intro x hx
      have := hall x hx
      omega)
    rw [this]
    simp

end RemoveCols

namespace RemoveCols

theorem mem_setInsert (s : List ℕ) (y x : ℕ) :
    x ∈ setInsert s y ↔ x ∈ s ∨ x = y := by
  unfold setInsert
  by_cases h : y ∈ s
  · rw [if_pos h]
    constructor
    · exact Or.inl
    · rintro (hc | hc)
      · exact hc
      · rw [hc]; exact h
  · rw [if_neg h]
    simp

theorem setInsert_nodup (s : List ℕ) (y : ℕ) (h : s.Nodup) : (setInsert s y).Nodup := by
  unfold setInsert
  by_cases hy : y ∈ s
  · rw [if_pos hy]; exact h
  · rw [if_neg hy]
    simpa [List.nodup_append] using ⟨h, hy⟩

theorem foldl_mem_iff {β : Type} (step : List ℕ → β → List ℕ) (C : β → ℕ → Prop)
    (hstep : ∀ s b x, x ∈ step s b ↔ x ∈ s ∨ C b x) (l : List β) :
    ∀ (dc : List ℕ) (x : ℕ), x ∈ l.foldl step dc ↔ x ∈ dc ∨ ∃ b ∈ l, C b x := by
  induction l with
  | nil => intro dc x; simp
  | cons b bs ih =>
    intro dc x
    rw [List.foldl_cons, ih (step dc b) x]
    constructor
    · rintro (hc | ⟨b', hb', hcb⟩)
      · rcases (hstep dc b x).mp hc with h | h
        · exact Or.inl h
        · exact Or.inr ⟨b, by simp, h⟩
      · exact Or.inr ⟨b', by simp [hb'], hcb⟩
    · rintro (hc | ⟨b', hb', hcb⟩)
      · exact Or.inl ((hstep dc b x).mpr (Or.inl hc))
      · rcases List.mem_cons.mp hb' with hc1 | hc1
        · exact Or.inl ((hstep dc b x).mpr (Or.inr (hc1 ▸ hcb)))
        · exact Or.inr ⟨b', hc1, hcb⟩

theorem foldl_nodup {β : Type} (step : List ℕ → β → List ℕ)
    (hstep : ∀ s b, s.Nodup → (step s b).Nodup) (l : List β) :
    ∀ dc : List ℕ, dc.Nodup → (l.foldl step dc).Nodup := by
  induction l with
  | nil => intro dc h; exact h
  | cons b bs ih => intro dc h; exact ih (step dc b) (hstep dc b h)

theorem mem_get_single_value_cols (data : List (List String)) (dc : List ℕ) (x : ℕ) :
    x ∈ get_single_value_cols data dc ↔
      x ∈ dc ∨ ∃ p ∈ data.enum, p.2.dedup.length = 1 ∧ x = p.1 := by
  unfold get_single_value_cols
  refine foldl_mem_iff _ (fun p x => p.2.dedup.length = 1 ∧ x = p.1) ?_ data.enum dc x
  intro s b y
  by_cases hb : b.2.dedup.length = 1
  · rw [if_pos hb, mem_setInsert]
    constructor
    · rintro (h | h)
      · exact Or.inl h
      · exact Or.inr ⟨hb, h⟩
    · rintro (h | ⟨_, h⟩)
      · exact Or.inl h
      · exact Or.inr h
  · rw [if_neg hb]
    constructor
    · exact Or.inl
    · rintro (h | ⟨hc, _⟩)
      · exact h
      · exact absurd hc hb

theorem mem_get_dupe_cols (data : List (List String)) (dc : List ℕ) (x : ℕ) :
    x ∈ get_dupe_cols data dc ↔
      x ∈ dc ∨ ∃ p ∈ data.enum, ∃ q ∈ data.enum, p.1 < q.1 ∧ p.2 = q.2 ∧ x = q.1 := by
  unfold get_dupe_cols
  refine foldl_mem_iff _
    (fun p x => ∃ q ∈ data.enum, p.1 < q.1 ∧ p.2 = q.2 ∧ x = q.1) ?_ data.enum dc x
  intro s p y
  refine foldl_mem_iff _ (fun q y => p.1 < q.1 ∧ p.2 = q.2 ∧ y = q.1) ?_ data.enum s y
  intro s' q z
  by_cases hle : q.1 ≤ p.1
  · rw [if_pos hle]
    constructor
    · exact Or.inl
    · rintro (h | ⟨hlt, _, _⟩)
      · exact h
      · omega
  · rw [if_neg hle]
    by_cases heq : p.2 = q.2
    · rw [if_pos heq, mem_setInsert]
      constructor
      · rintro (h | h)
        · exact Or.inl h
        · exact Or.inr ⟨by omega, heq, h⟩
      · rintro (h | ⟨_, _, h⟩)
        · exact Or.inl h
        · exact Or.inr h
    · rw [if_neg heq]
      constructor
      · exact Or.inl
      · rintro (h | ⟨_, hc, _⟩)
        · exact h
        · exact absurd hc heq

theorem get_single_value_cols_nodup (data : List (List String)) (dc : List ℕ)
    (h : dc.Nodup) : (get_single_value_cols data dc).Nodup := by
  unfold get_single_value_cols
  refine foldl_nodup _ ?_ data.enum dc h
  intro s b hs
  by_cases hb : b.2.dedup.length = 1
  · rw [if_pos hb]; exact setInsert_nodup s b.1 hs
  · rw [if_neg hb]; exact hs

theorem get_dupe_cols_nodup (data : List (List String)) (dc : List ℕ)
    (h : dc.Nodup) : (get_dupe_cols data dc).Nodup := by
  unfold get_dupe_cols
  refine foldl_nodup _ ?_ data.enum dc h
  intro s p hs
  refine foldl_nodup _ ?_ data.enum s hs
  intro s' q hs'
  by_cases hle : q.1 ≤ p.1
  · rw [if_pos hle]; exact hs'
  · rw [if_neg hle]
    by_cases heq : p.2 = q.2
    · rw [if_pos heq]; exact setInsert_nodup s' q.1 hs'
    · rw [if_neg heq]; exact hs'

theorem sortDescNat_pairwise (l : List ℕ) (h : l.Nodup) :
    (sortDescNat l).Pairwise (fun a b => b < a) := by
  have hpw := pySorted_pairwise (fun a b : ℕ => decide (b < a))
    (by
      intro a b c hab hbc
      simp only [decide_eq_false_iff_not, not_lt] at hab hbc ⊢
      omega)
    (by
      intro a b hab
      simp only [decide_eq_true_eq] at hab
      simp only [decide_eq_false_iff_not, not_lt]
      omega)
    l
  have hnd : (sortDescNat l).Nodup := ((pySorted_perm _ l).nodup_iff).mpr h
  have hcomb := List.Pairwise.and hpw (List.Pairwise.imp (by
      intro a b hab
      exact hab) hnd)
  refine hcomb.imp ?_
  rintro a b ⟨h1, h2⟩
  simp only [decide_eq_false_iff_not, not_lt] at h1
  omega

theorem mem_sortDescNat (l : List ℕ) (x : ℕ) : x ∈ sortDescNat l ↔ x ∈ l :=
  (pySorted_perm _ l).mem_iff

theorem remove_cols_eq_keepCols (data : List (List String)) (dropCols : List ℕ)
    (h : dropCols.Nodup) :
    remove_cols data dropCols = keepCols dropCols 0 data := by
  unfold remove_cols
  rw [foldl_eraseIdx_keepCols _ _ (sortDescNat_pairwise dropCols h)]
  exact keepCols_congr data 0 _ _ (fun j _ => mem_sortDescNat dropCols j)

end RemoveCols

namespace RemoveCols

theorem map_singleton_eq_colsSpec (r : List String) (w : ℕ) (hr : r.length = w) :
    r.map (fun f => [f]) = colsSpec [r] w := by
  apply List.ext_getElem
  · simp [colsSpec, hr]
  · intro j h1 h2
    have hj : j < w := by simpa [colsSpec] using h2
    have hjr : j < r.length := by omega
    simp [colsSpec, List.getD_eq_getElem?_getD, List.getElem?_eq_getElem hjr]

theorem colsSpec_length (lines : List (List String)) (w : ℕ) :
    (colsSpec lines w).length = w := by
  simp [colsSpec]

theorem get_file_as_cols_spec (w : ℕ) (lines : List (List String))
    (hw : ∀ r ∈ lines, r.length = w) :
    get_file_as_cols lines = if lines.isEmpty then [] else colsSpec lines w := by
  induction lines using List.reverseRecOn with
  | nil => rfl
  | append_singleton l r ih =>
    have hr : r.length = w := hw r (by simp)
    have hstep : get_file_as_cols (l ++ [r]) =
        (if (get_file_as_cols l).isEmpty then r.map (fun f => [f])
         else ((get_file_as_cols l).zipWith (fun d f => d ++ [f]) r) ++
           (get_file_as_cols l).drop r.length) := by
      unfold get_file_as_cols
      rw [List.foldl_append]
      rfl
    rw [hstep, if_neg (show ¬ (l ++ [r]).isEmpty = true by simp)]
    cases l with
    | nil =>
      rw [show get_file_as_cols [] = ([] : List (List String)) from rfl,
        if_pos (by simp)]
      exact map_singleton_eq_colsSpec r w hr
    | cons r0 l' =>
      have hgf : get_file_as_cols (r0 :: l') = colsSpec (r0 :: l') w := by
        rw [ih (fun r' hr' => hw r'
          (by rcases List.mem_cons.mp hr' with h | h <;> simp [h])), if_neg (by simp)]
      rw [hgf]
      by_cases hw0 : w = 0
      · subst hw0
        have hcs : colsSpec (r0 :: l') 0 = [] := by simp [colsSpec]
        have hrnil : r = [] := List.length_eq_zero.mp hr
        rw [hcs, if_pos (by simp), hrnil]
        simp [colsSpec]
      · have hcs_ne : ¬ ((colsSpec (r0 :: l') w).isEmpty = true) := by
          simp [colsSpec, List.isEmpty_iff, hw0]
        rw [if_neg hcs_ne]
        have hlen : (colsSpec (r0 :: l') w).length = w := colsSpec_length _ _
        have hdrop : (colsSpec (r0 :: l') w).drop r.length = [] := by
          apply List.drop_eq_nil_of_le
          rw [hlen, hr]
        rw [hdrop, List.append_nil]
        apply List.ext_getElem
        · simp [colsSpec, hr]
        · intro j h1 h2
          have hj : j < w := by simpa [colsSpec] using h2
          have hjr : j < r.length := by omega
          simp only [List.getElem_zipWith, colsSpec, List.getElem_map,
            List.getElem_range, List.map_append, List.map_cons, List.map_nil]
          rw [List.getD_eq_getElem r "" hjr]

theorem keepCols_subset {α : Type} (l : List α) :
    ∀ (n : ℕ) (bad : List ℕ) (c : α), c ∈ keepCols bad n l → c ∈ l := by
  induction l with
  | nil => intro n bad c h; simp [keepCols] at h
  | cons x xs ih =>
    intro n bad c h
    by_cases hn : n ∈ bad
    · rw [keepCols, if_pos hn] at h
      exact List.mem_cons_of_mem x (ih (n + 1) bad c h)
    · rw [keepCols, if_neg hn] at h
      rcases List.mem_cons.mp h with hc | hc
      · rw [hc]; simp
      · exact List.mem_cons_of_mem x (ih (n + 1) bad c hc)

theorem keepCols_eq_nil_iff {α : Type} (l : List α) :
    ∀ (n : ℕ) (bad : List ℕ), keepCols bad n l = [] ↔ ∀ k < l.length, (n + k) ∈ bad := by
  induction l with
  | nil =>
    intro n bad
    rw [show keepCols bad n ([] : List α) = [] from rfl]
    simp
  | cons x xs ih =>
    intro n bad
    by_cases hn : n ∈ bad
    · rw [keepCols, if_pos hn, ih (n + 1) bad]
      constructor
      · intro h k hk
        cases k with
        | zero => simpa using hn
        | succ k' =>
          have := h k' (by simpa using hk)
          have heq : n + 1 + k' = n + (k' + 1) := by omega
          rw [← heq]
          exact this
      · intro h k hk
        have := h (k + 1) (by simpa using hk)
        have heq : n + (k + 1) = n + 1 + k := by omega
        rw [← heq]
        exact this
    · rw [keepCols, if_neg hn]
      constructor
      · intro h; exact absurd h (by simp)
      · intro h
        have := h 0 (by simp)
        simp only [Nat.add_zero] at this
        exact absurd this hn

theorem keepCols_map {α β : Type} (f : α → β) (l : List α) :
    ∀ (n : ℕ) (bad : List ℕ),
      (keepCols bad n l).map f = keepCols bad n (l.map f) := by
  induction l with
  | nil => intro n bad; rfl
  | cons x xs ih =>
    intro n bad
    have h1 : keepCols bad n (x :: xs) =
        if n ∈ bad then keepCols bad (n + 1) xs else x :: keepCols bad (n + 1) xs := rfl
    have h2 : keepCols bad n ((x :: xs).map f) =
        if n ∈ bad then keepCols bad (n + 1) (xs.map f)
        else f x :: keepCols bad (n + 1) (xs.map f) := rfl
    rw [h1, h2]
    by_cases hn : n ∈ bad
    · rw [if_pos hn, if_pos hn, ih]
    · rw [if_neg hn, if_neg hn, List.map_cons, ih]

theorem range_map_getD {α : Type} (l : List α) (d : α) :
    (List.range l.length).map (fun j => l.getD j d) = l := by
  apply List.ext_getElem
  · simp
  · intro j h1 h2
    simp [List.getD_eq_getElem?_getD, List.getElem?_eq_getElem h2]

end RemoveCols

namespace RemoveCols

theorem mem_colsSpec_enum (lines : List (List String)) (w : ℕ) (p : ℕ × List String) :
    p ∈ (colsSpec lines w).enum ↔
      p.1 < w ∧ p.2 = lines.map (fun r => r.getD p.1 "") := by
  obtain ⟨i, c⟩ := p
  rw [List.mk_mem_enum_iff_getElem?]
  constructor
  · intro h
    have hlt : i < (colsSpec lines w).length := by
      by_contra hc
      push_neg at hc
      rw [List.getElem?_eq_none hc] at h
      exact absurd h (by simp)
    rw [List.getElem?_eq_getElem hlt] at h
    have hi : i < w := by simpa [colsSpec] using hlt
    refine ⟨hi, ?_⟩
    have he := Option.some.inj h
    rw [← he]
    simp [colsSpec]
  · rintro ⟨hi, hc⟩
    have hi' : i < w := hi
    have hc' : c = lines.map (fun r => r.getD i "") := hc
    have hlt : i < (colsSpec lines w).length := by simpa [colsSpec] using hi'
    rw [List.getElem?_eq_getElem hlt, hc']
    simp [colsSpec]

theorem const_col_iff (lines : List (List String)) (hne : lines ≠ []) (i : ℕ) :
    (lines.map (fun r => r.getD i "")).dedup.length = 1 ↔
      ∀ r ∈ lines, r.getD i "" = (lines.headD []).getD i "" := by
  rw [dedup_length_eq_one _ ""]
  constructor
  · rintro ⟨_, hall⟩ r hr
    have := hall _ (List.mem_map_of_mem _ hr)
    rw [this]
    cases lines with
    | nil => exact absurd rfl hne
    | cons l0 ls => simp
  · intro hall
    refine ⟨by simpa using hne, ?_⟩
    intro x hx
    obtain ⟨r, hr, hre⟩ := List.mem_map.mp hx
    rw [← hre, hall r hr]
    cases lines with
    | nil => exact absurd rfl hne
    | cons l0 ls => simp

theorem mem_dropSet_iff (lines : List (List String)) (w : ℕ)
    (hne : lines ≠ []) (hw : ∀ r ∈ lines, r.length = w) (j : ℕ) :
    j ∈ dropSet (get_file_as_cols lines) ↔
      j < w ∧
        ((∀ r ∈ lines, r.getD j "" = (lines.headD []).getD j "") ∨
         ∃ i < j, lines.map (fun r => r.getD i "") = lines.map (fun r => r.getD j "")) := by
  have hdata : get_file_as_cols lines = colsSpec lines w := by
    rw [get_file_as_cols_spec w lines hw,
      if_neg (by simpa [List.isEmpty_iff] using hne)]
  rw [hdata]
  unfold dropSet
  rw [mem_get_dupe_cols, mem_get_single_value_cols]
  simp only [List.not_mem_nil, false_or]
  constructor
  · rintro (⟨p, hp, hp1, hpj⟩ | ⟨p, hp, q, hq, hlt, hpq, hqj⟩)
    · obtain ⟨hpw, hpc⟩ := (mem_colsSpec_enum lines w p).mp hp
      subst hpj
      rw [hpc] at hp1
      exact ⟨hpw, Or.inl ((const_col_iff lines hne p.1).mp hp1)⟩
    · obtain ⟨hpw, hpc⟩ := (mem_colsSpec_enum lines w p).mp hp
      obtain ⟨hqw, hqc⟩ := (mem_colsSpec_enum lines w q).mp hq
      subst hqj
      refine ⟨hqw, Or.inr ⟨p.1, hlt, ?_⟩⟩
      rw [← hpc, ← hqc, hpq]
  · rintro ⟨hj, hconst | ⟨i, hij, heq⟩⟩
    · refine Or.inl ⟨(j, lines.map (fun r => r.getD j "")),
        (mem_colsSpec_enum lines w _).mpr ⟨hj, rfl⟩, ?_, rfl⟩
      exact (const_col_iff lines hne j).mpr hconst
    · refine Or.inr ⟨(i, lines.map (fun r => r.getD i "")),
        (mem_colsSpec_enum lines w _).mpr ⟨by omega, rfl⟩,
        (j, lines.map (fun r => r.getD j "")),
        (mem_colsSpec_enum lines w _).mpr ⟨hj, rfl⟩, hij, heq, rfl⟩

theorem dropSet_nodup (data : List (List String)) : (dropSet data).Nodup :=
  get_dupe_cols_nodup data _ (get_single_value_cols_nodup data [] (by simp))

theorem mapME_getcol (t : ℕ) (cols : List (List String)) (row : List String)
    (h : mapME (fun col => if h : t < col.length then Except.ok (col.get ⟨t, h⟩)
      else Except.error PyErr.indexError) cols = .ok row) :
    row = cols.map (fun col => col.getD t "") := by
  induction cols generalizing row with
  | nil =>
    simp only [mapME] at h
    cases h
    rfl
  | cons c cs ih =>
    simp only [mapME] at h
    by_cases hb : t < c.length
    · rw [dif_pos hb] at h
      cases hrest : mapME (fun col => if h : t < col.length then Except.ok (col.get ⟨t, h⟩)
          else Except.error PyErr.indexError) cs with
      | error e => rw [hrest] at h; exact absurd h (by simp)
      | ok row' =>
        rw [hrest] at h
        cases h
        rw [List.map_cons, ← ih row' hrest]
        congr 1
        rw [List.getD_eq_getElem c "" hb]
        rfl
    · rw [dif_neg hb] at h
      exact absurd h (by simp)

end RemoveCols

namespace RemoveCols

theorem survivors_eq_keepCols (lines : List (List String)) :
    survivors lines =
      keepCols (dropSet (get_file_as_cols lines)) 0 (get_file_as_cols lines) :=
  remove_cols_eq_keepCols _ _ (dropSet_nodup _)

theorem survivors_col_length (lines : List (List String)) (w : ℕ)
    (hw : ∀ r ∈ lines, r.length = w) :
    ∀ c ∈ survivors lines, c.length = lines.length := by
  intro c hc
  have hc2 : c ∈ get_file_as_cols lines := by
    rw [survivors_eq_keepCols] at hc
    exact keepCols_subset _ 0 _ c hc
  by_cases hne : lines.isEmpty
  · rw [get_file_as_cols_spec w lines hw, if_pos hne] at hc2
    exact absurd hc2 (by simp)
  · rw [get_file_as_cols_spec w lines hw, if_neg hne] at hc2
    unfold colsSpec at hc2
    obtain ⟨j, _, hcj⟩ := List.mem_map.mp hc2
    rw [← hcj]
    simp

theorem survivors_cons (lines : List (List String)) (hne : survivors lines ≠ []) :
    ∃ c0 cs0, survivors lines = c0 :: cs0 := by
  cases hsv : survivors lines with
  | nil => exact absurd hsv hne
  | cons a l => exact ⟨a, l, rfl⟩

theorem removeRun_ok_rows (lines : List (List String)) (w : ℕ)
    (hne : lines ≠ []) (hw : ∀ r ∈ lines, r.length = w)
    (out : List (List String)) (h : removeRun lines = .ok out) :
    out = lines.map (fun r => keepCols (dropSet (get_file_as_cols lines)) 0 r) := by
  have hdata : get_file_as_cols lines = colsSpec lines w := by
    rw [get_file_as_cols_spec w lines hw,
      if_neg (by simpa [List.isEmpty_iff] using hne)]
  unfold removeRun at h
  by_cases hemp : (survivors lines).isEmpty
  · rw [if_pos hemp] at h
    exact absurd h (by simp)
  · rw [if_neg hemp] at h
    have hcollen := survivors_col_length lines w hw
    obtain ⟨c0, cs0, hsc⟩ := survivors_cons lines (by simpa [List.isEmpty_iff] using hemp)
    have hhead : ((survivors lines).headD []).length = lines.length := by
      rw [hsc]
      exact hcollen c0 (by rw [hsc]; simp)
    have hlenout : out.length = lines.length := by
      have hx := mapME_ok_length _ _ _ h
      rw [hx, List.length_range, hhead]
    have hrow : ∀ t, t < lines.length →
        out.getD t [] =
          keepCols (dropSet (get_file_as_cols lines)) 0 (lines.getD t []) := by
      intro t ht
      have ht' : t < (List.range ((survivors lines).headD []).length).length := by
        rw [List.length_range, hhead]; exact ht
      have hinner := mapME_ok_getD _ _ _ h t ht' 0 []
      rw [getD_range _ _ (by rw [hhead]; exact ht)] at hinner
      rw [mapME_getcol t (survivors lines) _ hinner]
      rw [survivors_eq_keepCols, keepCols_map]
      congr 1
      rw [hdata]
      unfold colsSpec
      rw [List.map_map]
      have hrt : lines.getD t [] ∈ lines := by
        rw [List.getD_eq_getElem lines [] ht]
        exact List.getElem_mem ht
      have hlw : (lines.getD t []).length = w := hw _ hrt
      conv_rhs => rw [← range_map_getD (lines.getD t []) ""]
      rw [hlw]
      refine List.map_congr_left ?_
      intro j hj
      simp only [Function.comp]
      rw [List.getD_eq_getElem (lines.map _) "" (by simpa using ht), List.getElem_map,
        List.getD_eq_getElem lines [] ht]
    apply List.ext_getElem
    · simp [hlenout]
    · intro t h1 h2
      have ht : t < lines.length := by simpa using h2
      have hr := hrow t ht
      rw [List.getD_eq_getElem out [] h1, List.getD_eq_getElem lines [] ht] at hr
      simpa using hr

/-- C4: in `removesuperfluouscols`, for a non-empty rectangular table of
width `w`: the transpose built by `_get_file_as_cols` is faithful; a column
index is flagged for removal iff its column is constant or equal to a column
of smaller index; the surviving columns are the unflagged ones in original
order with original values; and each printed row is the original row
restricted to the unflagged column indices, in order. -/
theorem removesuperfluouscols_superfluous (lines : List (List String)) (w : ℕ)
    (hne : lines ≠ []) (hw : ∀ r ∈ lines, r.length = w) :
    get_file_as_cols lines = colsSpec lines w ∧
    (∀ j, j ∈ dropSet (get_file_as_cols lines) ↔
      j < w ∧
        ((∀ r ∈ lines, r.getD j "" = (lines.headD []).getD j "") ∨
         ∃ i < j, lines.map (fun r => r.getD i "") = lines.map (fun r => r.getD j ""))) ∧
    survivors lines =
      keepCols (dropSet (get_file_as_cols lines)) 0 (get_file_as_cols lines) ∧
    (∀ out, removeRun lines = .ok out →
      out = lines.map (fun r => keepCols (dropSet (get_file_as_cols lines)) 0 r)) := by
  refine ⟨?_, fun j => mem_dropSet_iff lines w hne hw j,
    survivors_eq_keepCols lines, fun out h => removeRun_ok_rows lines w hne hw out h⟩
  rw [get_file_as_cols_spec w lines hw,
    if_neg (by simpa [List.isEmpty_iff] using hne)]

theorem removeRun_all_flagged (lines : List (List String)) (w : ℕ)
    (hne : lines ≠ []) (hw : ∀ r ∈ lines, r.length = w)
    (hall : ∀ j < w, j ∈ dropSet (get_file_as_cols lines)) :
    survivors lines = [] ∧ removeRun lines = .error .indexError := by
  have hdata : get_file_as_cols lines = colsSpec lines w := by
    rw [get_file_as_cols_spec w lines hw,
      if_neg (by simpa [List.isEmpty_iff] using hne)]
  have hnil : survivors lines = [] := by
    rw [survivors_eq_keepCols, keepCols_eq_nil_iff]
    intro k hk
    rw [hdata, colsSpec_length] at hk
    simpa using hall k hk
  refine ⟨hnil, ?_⟩
  unfold removeRun
  rw [hnil]
  rfl

/-- C8: for a non-empty rectangular table: if some column is neither
constant nor a duplicate of an earlier column, `remove` completes normally
(every index in the printing loop is in bounds); if every column is flagged
superfluous, the surviving-column list is empty and the `data[0]` access
raises `IndexError`; in particular any single-row table (every column
constant) raises `IndexError`. -/
theorem removesuperfluouscols_print_safety (lines : List (List String)) (w : ℕ)
    (hne : lines ≠ []) (hw : ∀ r ∈ lines, r.length = w) :
    ((∃ j, j < w ∧
        ¬(∀ r ∈ lines, r.getD j "" = (lines.headD []).getD j "") ∧
        ¬(∃ i < j, lines.map (fun r => r.getD i "") = lines.map (fun r => r.getD j ""))) →
      ∃ out, removeRun lines = .ok out) ∧
    ((∀ j, j < w →
        ((∀ r ∈ lines, r.getD j "" = (lines.headD []).getD j "") ∨
         ∃ i < j, lines.map (fun r => r.getD i "") = lines.map (fun r => r.getD j ""))) →
      survivors lines = [] ∧ removeRun lines = .error .indexError) ∧
    (∀ r : List String, r ≠ [] → removeRun [r] = .error .indexError) := by
  refine ⟨?_, ?_, ?_⟩
  · rintro ⟨j, hj, hnc, hnd⟩
    have hjb : j ∉ dropSet (get_file_as_cols lines) := by
      rw [mem_dropSet_iff lines w hne hw j]
      rintro ⟨_, hc | hd⟩
      · exact hnc hc
      · exact hnd hd
    have hdata : get_file_as_cols lines = colsSpec lines w := by
      rw [get_file_as_cols_spec w lines hw,
        if_neg (by simpa [List.isEmpty_iff] using hne)]
    have hsne : survivors lines ≠ [] := by
      rw [survivors_eq_keepCols]
      intro hc
      rw [keepCols_eq_nil_iff] at hc
      have := hc j (by rw [hdata, colsSpec_length]; exact hj)
      simp only [Nat.zero_add] at this
      exact hjb this
    have hcollen := survivors_col_length lines w hw
    obtain ⟨c0, cs0, hsc⟩ := survivors_cons lines hsne
    have hhead : ((survivors lines).headD []).length = lines.length := by
      rw [hsc]
      exact hcollen c0 (by rw [hsc]; simp)
    unfold removeRun
    rw [if_neg (by rw [hsc]; simp)]
    apply mapME_ok_of_forall
    intro i hi
    apply mapME_ok_of_forall
    intro col hcol
    have hicol : i < col.length := by
      rw [hcollen col hcol]
      rw [List.mem_range, hhead] at hi
      exact hi
    exact ⟨_, dif_pos hicol⟩
  · intro hall
    exact removeRun_all_flagged lines w hne hw (fun j hj =>
      (mem_dropSet_iff lines w hne hw j).mpr ⟨hj, hall j hj⟩)
  · intro r hr
    refine (removeRun_all_flagged [r] r.length (by simp) (by simp) ?_).2
    intro j hj
    rw [mem_dropSet_iff [r] r.length (by simp) (by simp) j]
    refine ⟨hj, Or.inl ?_⟩
    intro r' hr'
    rw [List.mem_singleton.mp hr']
    rfl

end RemoveCols

theorem removesuperfluouscols_superfluous_witness :
    RemoveCols.removeRun [["a", "b", "1", "1"], ["a", "b", "2", "2"], ["a", "c", "3", "3"]] =
      .ok [["b", "1"], ["b", "2"], ["c", "3"]] ∧
    [["b", "1"], ["b", "2"], ["c", "3"]] =
      ([["a", "b", "1", "1"], ["a", "b", "2", "2"], ["a", "c", "3", "3"]] :
          List (List String)).map
        (fun r => RemoveCols.keepCols
          (RemoveCols.dropSet (RemoveCols.get_file_as_cols
            [["a", "b", "1", "1"], ["a", "b", "2", "2"], ["a", "c", "3", "3"]])) 0 r) :=
  ⟨rfl,
    (RemoveCols.removesuperfluouscols_superfluous
      [["a", "b", "1", "1"], ["a", "b", "2", "2"], ["a", "c", "3", "3"]] 4
      (by decide) (by decide)).2.2.2 _ rfl⟩

theorem removesuperfluouscols_print_safety_witness :
    (RemoveCols.survivors [["a"], ["a"]] = [] ∧
      RemoveCols.removeRun [["a"], ["a"]] = .error .indexError) ∧
    RemoveCols.removeRun [["q", "x"]] = .error .indexError :=
  ⟨(RemoveCols.removesuperfluouscols_print_safety [["a"], ["a"]] 1
      (by decide) (by decide)).2.1 (by decide),
    (RemoveCols.removesuperfluouscols_print_safety [["a"], ["a"]] 1
      (by decide) (by decide)).2.2 ["q", "x"] (by decide)⟩

/-! ## `merge_seqmonk_deseq2_with_gprofiler.py` -/

namespace GProfiler

/-- `row[k]` on a Python dict modelled as an assoc list in insertion
order: the first entry with the key. -/
def alookup {α : Type} (k : String) : List (String × α) → Option α
  | [] => none
  | p :: ps => if p.1 = k then some p.2 else alookup k ps

/-- `d[k] = v` on a Python dict: update the existing entry in place,
else append a new one. -/
def dictInsert {α : Type} (d : List (String × α)) (k : String) (v : α) :
    List (String × α) :=
  if (d.map Prod.fst).contains k then
    d.map (fun p => if p.1 = k then (k, v) else p)
  else d ++ [(k, v)]

/-- Inserting every entry of `ps` in order, as `{**d, **ps}` does. -/
def dictUnion {α : Type} (d ps : List (String × α)) : List (String × α) :=
  ps.foldl (fun d2 p => dictInsert d2 p.1 p.2) d

/-- `row.pop(k)`: `None` models the `KeyError`; otherwise the popped value
and the dict without the key. -/
def dictPop {α : Type} (d : List (String × α)) (k : String) :
    Option (α × List (String × α)) :=
  match alookup k d with
  | none => none
  | some v => some (v, d.filter (fun p => decide (p.1 ≠ k)))

/-- The row dict `csv.DictReader` yields: `dict(zip(header, fields))`. -/
def mkRow (header fields : List String) : List (String × String) :=
  dictUnion [] (header.zip fields)

/-- `f"ERROR: '{key}' column not found in '{file}'"`. -/
def colNotFound (key file : String) : String :=
  "ERROR: '" ++ key ++ "' column not found in '" ++ file ++ "'"

/-- The `KeyError` exit message of `_read_and_merge_gprofiler` (lines
91-96); `str(KeyError(id))` renders as `'id'`. -/
def idNotFound (id gkey gfile dkey dfile : String) : String :=
  "ERROR: '" ++ id ++ "' ID from '" ++ gkey ++ "' column of '" ++ gfile ++
    "' not found in '" ++ dkey ++ "' column of '" ++ dfile ++ "'"

/-- `_read_deseq2` (lines 54-65): store each row dict, minus the popped
key column, under the key value; a missing key column exits. -/
def read_deseq2 (dfile dkey : String) (dheader : List String)
    (drows : List (List String)) :
    Except PyErr (List (String × List (String × String))) :=
  foldME
    (fun data fields =>
      match dictPop (mkRow dheader fields) dkey with
      | none => .error (.systemExit (colNotFound dkey dfile))
      | some kv => .ok (dictInsert data kv.1 kv.2))
    [] drows

/-- `_read_and_merge_gprofiler` (lines 68-97): pop the g:Profiler key
column, split its value on commas, and emit `{**row, dkey: id, **ddata[id]}`
per ID; a missing column or an unknown ID exits. -/
def read_and_merge_gprofiler (dfile gfile dkey gkey : String)
    (gheader : List String) (grows : List (List String))
    (ddata : List (String × List (String × String))) :
    Except PyErr (List (List (String × String))) :=
  foldME
    (fun merged fields =>
      match dictPop (mkRow gheader fields) gkey with
      | none => .error (.systemExit (colNotFound gkey gfile))
      | some kv =>
        match mapME
            (fun key =>
              match alookup key ddata with
              | none => .error (.systemExit (idNotFound key gkey gfile dkey dfile))
              | some drow => .ok (dictUnion (dictInsert (dictUnion [] kv.2) dkey key) drow))
            (strSplitOn "," kv.1) with
        | .error e => .error e
        | .ok newRows => .ok (merged ++ newRows))
    [] grows

/-- The DESeq2 dictionary `_read_deseq2` builds, written as a plain fold:
each row keyed by its `dkey` value, the value being the rest of the row. -/
def deseq2Dict (dkey : String) (dheader : List String)
    (drows : List (List String)) : List (String × List (String × String)) :=
  drows.foldl
    (fun data r =>
      dictInsert data ((alookup dkey (dheader.zip r)).getD "")
        ((dheader.zip r).filter (fun p => decide (p.1 ≠ dkey))))
    []

theorem alookup_append {α : Type} (k : String) (d e : List (String × α)) :
    alookup k (d ++ e) =
      match alookup k d with
      | some v => some v
      | none => alookup k e := by
  induction d with
  | nil => simp [alookup]
  | cons p ps ih =>
    by_cases h : p.1 = k
    · simp [alookup, h]
    · simp [alookup, h, ih]

theorem alookup_eq_none {α : Type} (k : String) (d : List (String × α))
    (h : k ∉ d.map Prod.fst) : alookup k d = none := by
  induction d with
  | nil => rfl
  | cons p ps ih =>
    simp only [List.map_cons, List.mem_cons] at h
    push_neg at h
    rw [alookup, if_neg (fun he => h.1 he.symm), ih h.2]

theorem contains_keys_iff {α : Type} (d : List (String × α)) (k : String) :
    (d.map Prod.fst).contains k = true ↔ k ∈ d.map Prod.fst := by
  simp [List.contains_iff_exists_mem_beq, beq_iff_eq, eq_comm]

theorem dictInsert_of_not_mem {α : Type} (d : List (String × α)) (k : String) (v : α)
    (h : k ∉ d.map Prod.fst) : dictInsert d k v = d ++ [(k, v)] := by
  unfold dictInsert
  rw [if_neg (fun hc => h ((contains_keys_iff d k).mp hc))]

theorem alookup_dictInsert_self {α : Type} (d : List (String × α)) (k : String) (v : α) :
    alookup k (dictInsert d k v) = some v := by
  unfold dictInsert
  by_cases hc : (d.map Prod.fst).contains k = true
  · rw [if_pos hc]
    have hm : k ∈ d.map Prod.fst := (contains_keys_iff d k).mp hc
    clear hc
    induction d with
    | nil => simp at hm
    | cons p ps ih =>
      by_cases hp : p.1 = k
      · simp [alookup, hp]
      · have hm' : k ∈ ps.map Prod.fst := by
          rcases List.mem_cons.mp hm with h1 | h1
          · exact absurd h1.symm hp
          · exact h1
        simp [alookup, hp, ih hm']
  · rw [if_neg hc, alookup_append,
      alookup_eq_none k d (fun hm => hc ((contains_keys_iff d k).mpr hm))]
    simp [alookup]

theorem alookup_dictInsert_other {α : Type} (d : List (String × α)) (k2 : String)
    (v : α) (k : String) (h : k ≠ k2) :
    alookup k (dictInsert d k2 v) = alookup k d := by
  unfold dictInsert
  by_cases hc : (d.map Prod.fst).contains k2 = true
  · rw [if_pos hc]
    clear hc
    induction d with
    | nil => rfl
    | cons p ps ih =>
      by_cases hp : p.1 = k2
      · have h1 : alookup k ((p :: ps).map (fun q => if q.1 = k2 then (k2, v) else q)) =
            alookup k (ps.map (fun q => if q.1 = k2 then (k2, v) else q)) := by
          simp only [List.map_cons, if_pos hp]
          rw [alookup, if_neg (fun he => h he.symm)]
        rw [h1, ih, alookup, if_neg (fun he : p.1 = k => h (he ▸ hp))]
      · simp only [List.map_cons, if_neg hp]
        rw [alookup, alookup]
        by_cases hpk : p.1 = k
        · rw [if_pos hpk, if_pos hpk]
        · rw [if_neg hpk, if_neg hpk, ih]
  · rw [if_neg hc, alookup_append]
    cases halk : alookup k d with
    | some v2 => rfl
    | none =>
      rw [alookup, if_neg (fun he => h he.symm)]
      rfl

theorem dictUnion_append_of_disjoint {α : Type} (ps : List (String × α)) :
    ∀ d : List (String × α), (∀ p ∈ ps, p.1 ∉ d.map Prod.fst) →
      (ps.map Prod.fst).Nodup → dictUnion d ps = d ++ ps := by
  induction ps with
  | nil => intro d _ _; simp [dictUnion]
  | cons p ps ih =>
    intro d hdisj hnd
    have hstep : dictUnion d (p :: ps) = dictUnion (dictInsert d p.1 p.2) ps := rfl
    rw [hstep, dictInsert_of_not_mem d p.1 p.2 (hdisj p (by simp))]
    have hnd2 : p.1 ∉ ps.map Prod.fst ∧ (ps.map Prod.fst).Nodup := by
      rw [List.map_cons] at hnd
      exact List.nodup_cons.mp hnd
    have hnd' : (ps.map Prod.fst).Nodup := hnd2.2
    have hne : ∀ q ∈ ps, q.1 ≠ p.1 := by
      intro q hq he
      exact hnd2.1 (he ▸ List.mem_map_of_mem Prod.fst hq)
    rw [ih (d ++ [(p.1, p.2)]) (by
      intro q hq
      rw [List.map_append, List.mem_append]
      rintro (h1 | h1)
      · exact hdisj q (by simp [hq]) h1
      · simp only [List.map_cons, List.map_nil, List.mem_singleton] at h1
        exact hne q hq h1) hnd']
    simp

end GProfiler

namespace GProfiler

theorem zip_fst_sublist (l : List String) :
    ∀ l2 : List String, ((l.zip l2).map Prod.fst).Sublist l := by
  induction l with
  | nil => intro l2; simp
  | cons a as ih =>
    intro l2
    cases l2 with
    | nil => simp
    | cons b bs => simpa using (ih bs).cons₂ a

theorem zip_keys_nodup (l : List String) (l2 : List String) (h : l.Nodup) :
    ((l.zip l2).map Prod.fst).Nodup :=
  h.sublist (zip_fst_sublist l l2)

theorem mkRow_eq_zip (header fields : List String) (h : header.Nodup) :
    mkRow header fields = header.zip fields := by
  have := dictUnion_append_of_disjoint (header.zip fields) [] (by simp)
    (zip_keys_nodup header fields h)
  simpa [mkRow] using this

theorem alookup_zip_some (k : String) :
    ∀ (header fields : List String), k ∈ header → fields.length = header.length →
      ∃ v, alookup k (header.zip fields) = some v := by
  intro header
  induction header with
  | nil => intro fields hm _; simp at hm
  | cons a as ih =>
    intro fields hm hl
    cases fields with
    | nil => simp at hl
    | cons b bs =>
      by_cases ha : a = k
      · refine ⟨b, ?_⟩
        rw [List.zip_cons_cons, alookup, if_pos ha]
      · have hm' : k ∈ as := by
          rcases List.mem_cons.mp hm with h1 | h1
          · exact absurd h1.symm ha
          · exact h1
        obtain ⟨v, hv⟩ := ih bs hm' (by simpa using hl)
        refine ⟨v, ?_⟩
        rw [List.zip_cons_cons, alookup, if_neg ha]
        exact hv

theorem keys_filter_zip_mem (header fields : List String) (k c : String)
    (hc : c ∈ ((header.zip fields).filter (fun p => decide (p.1 ≠ k))).map Prod.fst) :
    c ∈ header ∧ c ≠ k := by
  obtain ⟨p, hp, hpc⟩ := List.mem_map.mp hc
  have hmem := List.mem_of_mem_filter hp
  have hq := List.of_mem_filter hp
  refine ⟨(zip_fst_sublist header fields).subset
    (hpc ▸ List.mem_map_of_mem Prod.fst hmem), ?_⟩
  rw [← hpc]
  simpa using hq

theorem keys_filter_zip_nodup (header fields : List String) (q : String × String → Bool)
    (hh : header.Nodup) : (((header.zip fields).filter q).map Prod.fst).Nodup :=
  hh.sublist (((List.filter_sublist _).map Prod.fst).trans (zip_fst_sublist header fields))

theorem foldME_ok_of_pointwise {σ α ε : Type} (f : σ → α → Except ε σ) (g : σ → α → σ)
    (l : List α) (h : ∀ s : σ, ∀ x ∈ l, f s x = .ok (g s x)) :
    ∀ s : σ, foldME f s l = .ok (l.foldl g s) := by
  induction l with
  | nil => intro s; rfl
  | cons x xs ih =>
    intro s
    have hstep : foldME f s (x :: xs) =
        match f s x with
        | .error e => .error e
        | .ok s2 => foldME f s2 xs := rfl
    rw [hstep, h s x (by simp)]
    exact ih (fun s2 y hy => h s2 y (by simp [hy])) (g s x)

theorem mapME_map {α β ε : Type} (f : α → Except ε β) (g : α → β) (l : List α)
    (h : ∀ x ∈ l, f x = .ok (g x)) : mapME f l = .ok (l.map g) := by
  induction l with
  | nil => rfl
  | cons x xs ih =>
    have hstep : mapME f (x :: xs) =
        match f x with
        | .error e => .error e
        | .ok y =>
          match mapME f xs with
          | .error e => .error e
          | .ok ys => .ok (y :: ys) := rfl
    rw [hstep, h x (by simp), ih (fun y hy => h y (by simp [hy]))]
    rfl

theorem foldl_append_bind {α β : Type} (m : α → List β) (l : List α) :
    ∀ init : List β, l.foldl (fun acc x => acc ++ m x) init = init ++ l.bind m := by
  induction l with
  | nil => intro init; simp
  | cons x xs ih => intro init; simp [List.foldl_cons, ih, List.append_assoc]

theorem alookup_foldl_dictInsert {α β : Type} (kf : β → String) (vf : β → α)
    (rows : List β) :
    ∀ (init : List (String × α)) (id : String),
      alookup id (rows.foldl (fun d r => dictInsert d (kf r) (vf r)) init) =
        match rows.reverse.find? (fun r => kf r == id) with
        | some r => some (vf r)
        | none => alookup id init := by
  induction rows using List.reverseRecOn with
  | nil => intro init id; rfl
  | append_singleton l r ih =>
    intro init id
    rw [List.foldl_append, List.foldl_cons, List.foldl_nil, List.reverse_append]
    simp only [List.reverse_cons, List.reverse_nil, List.nil_append, List.cons_append,
      List.find?]
    by_cases hb : kf r == id
    · rw [hb]
      have hid : id = kf r := (eq_of_beq hb).symm
      rw [hid, alookup_dictInsert_self]
    · have hb' : (kf r == id) = false :=
        beq_eq_false_iff_ne.mpr (fun he => hb (by simp [he]))
      rw [hb']
      have hid : id ≠ kf r := fun he => hb (by simp [he])
      rw [alookup_dictInsert_other _ _ _ _ hid, ih init id]
      simp only [List.append_eq, List.nil_append]

theorem alookup_deseq2Dict (dkey : String) (dheader : List String)
    (drows : List (List String)) (id : String) :
    alookup id (deseq2Dict dkey dheader drows) =
      (drows.reverse.find?
        (fun r => (alookup dkey (dheader.zip r)).getD "" == id)).map
        (fun r => (dheader.zip r).filter (fun p => decide (p.1 ≠ dkey))) := by
  have h2 := alookup_foldl_dictInsert
    (fun r : List String => (alookup dkey (dheader.zip r)).getD "")
    (fun r : List String => (dheader.zip r).filter (fun p => decide (p.1 ≠ dkey)))
    drows [] id
  rw [show deseq2Dict dkey dheader drows =
    drows.foldl
      (fun d r =>
        dictInsert d ((alookup dkey (dheader.zip r)).getD "")
          ((dheader.zip r).filter (fun p => decide (p.1 ≠ dkey)))) [] from rfl]
  rw [h2]
  cases hf : drows.reverse.find?
      (fun r => (alookup dkey (dheader.zip r)).getD "" == id) with
  | some r => rfl
  | none => rfl

end GProfiler

namespace GProfiler

theorem read_deseq2_ok (dfile dkey : String) (dheader : List String)
    (drows : List (List String)) (hh : dheader.Nodup) (hk : dkey ∈ dheader)
    (hrect : ∀ r ∈ drows, r.length = dheader.length) :
    read_deseq2 dfile dkey dheader drows = .ok (deseq2Dict dkey dheader drows) := by
  unfold read_deseq2 deseq2Dict
  refine foldME_ok_of_pointwise _ _ drows ?_ []
  intro s fields hf
  obtain ⟨v, hv⟩ := alookup_zip_some dkey dheader fields hk (hrect fields hf)
  rw [mkRow_eq_zip dheader fields hh]
  unfold dictPop
  rw [hv]
  rfl

theorem read_and_merge_ok (dfile gfile dkey gkey : String) (gheader : List String)
    (grows : List (List String)) (ddata : List (String × List (String × String)))
    (hgh : gheader.Nodup) (hgk : gkey ∈ gheader)
    (hgrect : ∀ r ∈ grows, r.length = gheader.length)
    (hdng : dkey ∉ gheader)
    (hdval : ∀ id drow, alookup id ddata = some drow →
      (drow.map Prod.fst).Nodup ∧ ∀ c ∈ drow.map Prod.fst, c ≠ dkey ∧ c ∉ gheader)
    (hfound : ∀ fields ∈ grows,
      ∀ id ∈ strSplitOn "," ((alookup gkey (gheader.zip fields)).getD ""),
        alookup id ddata ≠ none) :
    read_and_merge_gprofiler dfile gfile dkey gkey gheader grows ddata =
      .ok (grows.bind (fun fields =>
        (strSplitOn "," ((alookup gkey (gheader.zip fields)).getD "")).map (fun id =>
          (gheader.zip fields).filter (fun p => decide (p.1 ≠ gkey)) ++ [(dkey, id)] ++
            (alookup id ddata).getD []))) := by
  unfold read_and_merge_gprofiler
  refine (foldME_ok_of_pointwise _
    (fun merged fields => merged ++
      (strSplitOn "," ((alookup gkey (gheader.zip fields)).getD "")).map (fun id =>
        (gheader.zip fields).filter (fun p => decide (p.1 ≠ gkey)) ++ [(dkey, id)] ++
          (alookup id ddata).getD []))
    grows ?_ []).trans ?_
  · intro merged fields hf
    obtain ⟨v, hv⟩ := alookup_zip_some gkey gheader fields hgk (hgrect fields hf)
    dsimp only
    rw [mkRow_eq_zip gheader fields hgh]
    unfold dictPop
    rw [hv]
    dsimp only
    have hrows : mapME
        (fun key =>
          match alookup key ddata with
          | none => Except.error (PyErr.systemExit (idNotFound key gkey gfile dkey dfile))
          | some drow => Except.ok (dictUnion (dictInsert
              (dictUnion [] ((gheader.zip fields).filter (fun p => decide (p.1 ≠ gkey))))
              dkey key) drow))
        (strSplitOn "," v) =
        .ok ((strSplitOn "," v).map (fun id =>
          (gheader.zip fields).filter (fun p => decide (p.1 ≠ gkey)) ++ [(dkey, id)] ++
            (alookup id ddata).getD [])) := by
      apply mapME_map
      intro id hid
      have hfnd := hfound fields hf id (by rw [hv]; exact hid)
      cases hlk : alookup id ddata with
      | none => exact absurd hlk hfnd
      | some drow =>
        dsimp only
        congr 1
        have hgrest_nodup :
            (((gheader.zip fields).filter (fun p => decide (p.1 ≠ gkey))).map
              Prod.fst).Nodup := keys_filter_zip_nodup gheader fields _ hgh
        have ha : dictUnion []
            ((gheader.zip fields).filter (fun p => decide (p.1 ≠ gkey))) =
            (gheader.zip fields).filter (fun p => decide (p.1 ≠ gkey)) := by
          have := dictUnion_append_of_disjoint
            ((gheader.zip fields).filter (fun p => decide (p.1 ≠ gkey))) [] (by simp)
            hgrest_nodup
          simpa using this
        rw [ha]
        have hb : dictInsert
            ((gheader.zip fields).filter (fun p => decide (p.1 ≠ gkey))) dkey id =
            (gheader.zip fields).filter (fun p => decide (p.1 ≠ gkey)) ++ [(dkey, id)] := by
          apply dictInsert_of_not_mem
          intro hm
          exact hdng (keys_filter_zip_mem gheader fields gkey dkey hm).1
        rw [hb]
        obtain ⟨hdnod, hdmem⟩ := hdval id drow hlk
        refine dictUnion_append_of_disjoint drow _ ?_ hdnod
        intro p hp
        rw [List.map_append, List.mem_append]
        rintro (h1 | h1)
        · exact (hdmem p.1 (List.mem_map_of_mem Prod.fst hp)).2
            (keys_filter_zip_mem gheader fields gkey p.1 h1).1
        · simp only [List.map_cons, List.map_nil, List.mem_singleton] at h1
          exact (hdmem p.1 (List.mem_map_of_mem Prod.fst hp)).1 h1
    rw [hrows]
    rfl
  · rw [foldl_append_bind
      (fun fields =>
        (strSplitOn "," ((alookup gkey (gheader.zip fields)).getD "")).map (fun id =>
          (gheader.zip fields).filter (fun p => decide (p.1 ≠ gkey)) ++ [(dkey, id)] ++
            (alookup id ddata).getD [])) grows []]
    rw [List.nil_append]

/-- C5: with distinct header names, rectangular files, both key columns
present, and the DESeq2 headers (other than its key) disjoint from the
g:Profiler headers: the DESeq2 dict maps each key value to the rest of the
last row carrying it; and the merge succeeds with, per g:Profiler row in
order and per comma-separated ID of its key column in order, one output
row that is the row's remaining fields, then the DESeq2 key column set to
the ID, then the DESeq2 fields stored for that ID. -/
theorem gprofiler_merge_rows (dfile gfile dkey gkey : String)
    (dheader gheader : List String) (drows grows : List (List String))
    (hdh : dheader.Nodup) (hgh : gheader.Nodup)
    (hdk : dkey ∈ dheader) (hgk : gkey ∈ gheader)
    (hdrect : ∀ r ∈ drows, r.length = dheader.length)
    (hgrect : ∀ r ∈ grows, r.length = gheader.length)
    (hdng : dkey ∉ gheader)
    (hdisj : ∀ c ∈ dheader, c ≠ dkey → c ∉ gheader)
    (hfound : ∀ fields ∈ grows,
      ∀ id ∈ strSplitOn "," ((alookup gkey (gheader.zip fields)).getD ""),
        alookup id (deseq2Dict dkey dheader drows) ≠ none) :
    read_deseq2 dfile dkey dheader drows = .ok (deseq2Dict dkey dheader drows) ∧
    (∀ id, alookup id (deseq2Dict dkey dheader drows) =
      (drows.reverse.find?
        (fun r => (alookup dkey (dheader.zip r)).getD "" == id)).map
        (fun r => (dheader.zip r).filter (fun p => decide (p.1 ≠ dkey)))) ∧
    read_and_merge_gprofiler dfile gfile dkey gkey gheader grows
        (deseq2Dict dkey dheader drows) =
      .ok (grows.bind (fun fields =>
        (strSplitOn "," ((alookup gkey (gheader.zip fields)).getD "")).map (fun id =>
          (gheader.zip fields).filter (fun p => decide (p.1 ≠ gkey)) ++ [(dkey, id)] ++
            (alookup id (deseq2Dict dkey dheader drows)).getD []))) := by
  refine ⟨read_deseq2_ok dfile dkey dheader drows hdh hdk hdrect,
    fun id => alookup_deseq2Dict dkey dheader drows id, ?_⟩
  refine read_and_merge_ok dfile gfile dkey gkey gheader grows _ hgh hgk hgrect hdng
    ?_ hfound
  intro id drow hlk
  rw [alookup_deseq2Dict] at hlk
  obtain ⟨r, hfind, hdrow⟩ : ∃ r,
      drows.reverse.find? (fun r => (alookup dkey (dheader.zip r)).getD "" == id) =
        some r ∧
      drow = (dheader.zip r).filter (fun p => decide (p.1 ≠ dkey)) := by
    cases hf2 : drows.reverse.find?
        (fun r => (alookup dkey (dheader.zip r)).getD "" == id) with
    | none => rw [hf2] at hlk; exact absurd hlk (by simp)
    | some r =>
      rw [hf2] at hlk
      exact ⟨r, rfl, (Option.some.inj hlk).symm⟩
  subst hdrow
  refine ⟨keys_filter_zip_nodup dheader r _ hdh, ?_⟩
  intro c hc
  obtain ⟨hcd, hcne⟩ := keys_filter_zip_mem dheader r dkey c hc
  exact ⟨hcne, hdisj c hcd hcne⟩

end GProfiler

theorem gprofiler_merge_rows_witness :
    GProfiler.read_deseq2 "d.tsv" "ID" ["ID", "fc"]
        [["g1", "1"], ["g2", "2"], ["g1", "3"]] =
      .ok [("g1", [("fc", "3")]), ("g2", [("fc", "2")])] ∧
    GProfiler.read_and_merge_gprofiler "d.tsv" "g.csv" "ID" "intersections"
        ["name", "intersections"] [["n1", "g1,g2"], ["n2", "g2"]]
        [("g1", [("fc", "3")]), ("g2", [("fc", "2")])] =
      .ok [[("name", "n1"), ("ID", "g1"), ("fc", "3")],
        [("name", "n1"), ("ID", "g2"), ("fc", "2")],
        [("name", "n2"), ("ID", "g2"), ("fc", "2")]] :=
  ⟨(GProfiler.gprofiler_merge_rows "d.tsv" "g.csv" "ID" "intersections"
      ["ID", "fc"] ["name", "intersections"]
      [["g1", "1"], ["g2", "2"], ["g1", "3"]] [["n1", "g1,g2"], ["n2", "g2"]]
      (by decide) (by decide) (by decide) (by decide) (by decide) (by decide)
      (by decide) (by decide) (by decide)).1,
    (GProfiler.gprofiler_merge_rows "d.tsv" "g.csv" "ID" "intersections"
      ["ID", "fc"] ["name", "intersections"]
      [["g1", "1"], ["g2", "2"], ["g1", "3"]] [["n1", "g1,g2"], ["n2", "g2"]]
      (by decide) (by decide) (by decide) (by decide) (by decide) (by decide)
      (by decide) (by decide) (by decide)).2.2⟩

/-! ## `plotkaspcsv.py` -/

namespace Kasp

/-- `Well` (lines 49-78): a well label, a sample name and the three integer
fluorophore readings. -/
structure Well where
  rowcol : String
  sample : String
  fam : ℤ
  hex : ℤ
  rox : ℤ
deriving DecidableEq, Repr

/-- `Well.norm_fam` (lines 72-74): `fam / rox` as a Python float, idealised
as an exact rational. -/
def Well.norm_fam (w : Well) : PyF := PyF.div (PyF.ofInt w.fam) (PyF.ofInt w.rox)

/-- `Well.norm_hex` (lines 76-78): `hex / rox`. -/
def Well.norm_hex (w : Well) : PyF := PyF.div (PyF.ofInt w.hex) (PyF.ofInt w.rox)

/-- `Plate` (lines 32-46): a name and the wells. -/
structure Plate where
  name : String
  wells : List Well
deriving DecidableEq, Repr

/-- `Plate.__init__` (lines 35-38): the wells are sorted by `rowcol`
(Python's stable sort, modelled by stable insertion sort on the
lexicographic order of the label's characters). -/
def mkPlate (name : String) (ws : List Well) : Plate :=
  ⟨name, pySorted (fun a b => decide (a.rowcol.data < b.rowcol.data)) ws⟩

/-- `f"{n:02d}"`: zero-pad to two characters (only a single non-negative
digit needs padding). -/
def pad2 (n : ℤ) : String := if 0 ≤ n ∧ n < 10 then "0" ++ toString n else toString n

/-- The header loop of `make_plate_from_file` (lines 183-189): consume
lines up to the `Content,` line, extracting the plate name from the `ID1`
line; `split(": ")[1]` out of bounds raises `IndexError`. -/
def scanHeader : List String → String → Except PyErr (String × List String)
  | [], name => .ok (name, [])
  | l :: ls, name =>
    if strStartsWith l "Content," then .ok (name, ls)
    else if strStartsWith l "ID1" then
      match (strSplitOn ": " (pyRstrip l))[1]? with
      | none => .error .indexError
      | some part => scanHeader ls ((strSplitOn "," part).headD "")
    else scanHeader ls name

/-- The body of the well loop (lines 192-197) on one line's fields:
`rowcol = fields[2] + f"{int(fields[1]):02d}"`, `sample = fields[0]`, and
the three readings `int(fields[3..5])`; a missing index raises
`IndexError`, a failed `int()` raises `ValueError`. -/
def parseWellFields (fields : List String) : Except PyErr Well :=
  match fields[2]? with
  | none => .error .indexError
  | some f2 =>
    match fields[1]? with
    | none => .error .indexError
    | some f1 =>
      match pyInt? f1 with
      | none => .error .valueError
      | some col =>
        match fields[3]? with
        | none => .error .indexError
        | some f3 =>
          match pyInt? f3 with
          | none => .error .valueError
          | some famv =>
            match fields[4]? with
            | none => .error .indexError
            | some f4 =>
              match pyInt? f4 with
              | none => .error .valueError
              | some hexv =>
                match fields[5]? with
                | none => .error .indexError
                | some f5 =>
                  match pyInt? f5 with
                  | none => .error .valueError
                  | some roxv =>
                    .ok ⟨f2 ++ pad2 col, fields.getD 0 "", famv, hexv, roxv⟩

/-- `make_plate_from_file` (lines 180-199): scan the header for the name,
parse every remaining line as a well, and build the (sorted) plate. -/
def make_plate_from_file (lines : List String) : Except PyErr Plate :=
  match scanHeader lines "" with
  | .error e => .error e
  | .ok nr =>
    match mapME (fun l => parseWellFields (strSplitOn "," (pyRstrip l))) nr.2 with
    | .error e => .error e
    | .ok ws => .ok (mkPlate nr.1 ws)

/-- `unnorm_fams` (line 86). -/
def unnorm_fams (plates : List Plate) : List ℤ :=
  plates.bind (fun p => p.wells.map Well.fam)

/-- `unnorm_hexs` (line 87). -/
def unnorm_hexs (plates : List Plate) : List ℤ :=
  plates.bind (fun p => p.wells.map Well.hex)

/-- `norm_fams` (line 88). -/
def norm_fams (plates : List Plate) : List PyF :=
  plates.bind (fun p => p.wells.map Well.norm_fam)

/-- `norm_hexs` (line 89). -/
def norm_hexs (plates : List Plate) : List PyF :=
  plates.bind (fun p => p.wells.map Well.norm_hex)

/-- `roxs` (line 90). -/
def roxs (plates : List Plate) : List ℤ :=
  plates.bind (fun p => p.wells.map Well.rox)

/-- `hues` (line 91): one copy of the plate name per well. -/
def hues (plates : List Plate) : List String :=
  plates.bind (fun p => p.wells.map (fun _ => p.name))

/-- `wells` (line 92): the rowcol labels. -/
def wellLabels (plates : List Plate) : List String :=
  plates.bind (fun p => p.wells.map Well.rowcol)

/-- A data series handed to `sns.scatterplot`: integers, floats or
strings. -/
inductive KaspSeries : Type
  | ints : List ℤ → KaspSeries
  | floats : List PyF → KaspSeries
  | strs : List String → KaspSeries
deriving DecidableEq

/-- The seven `_scatterplot` calls of `plot` (lines 94-155), as
(x, y, hue) data triples. -/
def scatterCalls (plates : List Plate) :
    List (KaspSeries × KaspSeries × List String) :=
  [(.ints (unnorm_fams plates), .ints (unnorm_hexs plates), hues plates),
   (.floats (norm_fams plates), .floats (norm_hexs plates), hues plates),
   (.strs (wellLabels plates), .ints (unnorm_fams plates), hues plates),
   (.strs (wellLabels plates), .ints (unnorm_hexs plates), hues plates),
   (.strs (wellLabels plates), .floats (norm_fams plates), hues plates),
   (.strs (wellLabels plates), .floats (norm_hexs plates), hues plates),
   (.strs (wellLabels plates), .ints (roxs plates), hues plates)]

/-- The series `plot` derives from the wells: the three raw readings, the
two normalised ratios, the labels. -/
def allowedSeries (plates : List Plate) : List KaspSeries :=
  [.strs (wellLabels plates), .ints (unnorm_fams plates), .ints (unnorm_hexs plates),
   .ints (roxs plates), .floats (norm_fams plates), .floats (norm_hexs plates)]

/-- C7: the two derived ratios are exactly normalised FAM `fam / rox` and
normalised HEX `hex / rox` (as exact rationals, for a non-zero ROX
reading), and every series handed to the seven scatterplots is one of the
three raw readings, the two normalised ratios, or the well labels, with
the plate names as hue — no other quantity is derived from the
readings. -/
theorem kasp_normalised_ratios (plates : List Plate) :
    (∀ w : Well, w.rox ≠ 0 →
      (Well.norm_fam w).toRat = (w.fam : ℚ) / (w.rox : ℚ) ∧
      (Well.norm_hex w).toRat = (w.hex : ℚ) / (w.rox : ℚ)) ∧
    (∀ c ∈ scatterCalls plates,
      c.2.2 = hues plates ∧ c.1 ∈ allowedSeries plates ∧
        c.2.1 ∈ allowedSeries plates) ∧
    norm_fams plates = plates.bind (fun p => p.wells.map Well.norm_fam) ∧
    norm_hexs plates = plates.bind (fun p => p.wells.map Well.norm_hex) := by
  refine ⟨?_, ?_, rfl, rfl⟩
  · intro w hrox
    have h1 : (PyF.ofInt w.fam).den ≠ 0 := (PyF.ofInt_den_pos w.fam).ne'
    have h2 : (PyF.ofInt w.hex).den ≠ 0 := (PyF.ofInt_den_pos w.hex).ne'
    have h3 : (PyF.ofInt w.rox).den ≠ 0 := (PyF.ofInt_den_pos w.rox).ne'
    have h4 : (PyF.ofInt w.rox).num ≠ 0 := hrox
    constructor
    · rw [Well.norm_fam, PyF.div_toRat _ _ h1 h3 h4, PyF.ofInt_toRat, PyF.ofInt_toRat]
    · rw [Well.norm_hex, PyF.div_toRat _ _ h2 h3 h4, PyF.ofInt_toRat, PyF.ofInt_toRat]
  · intro c hc
    simp only [scatterCalls, List.mem_cons, List.not_mem_nil, or_false] at hc
    rcases hc with h | h | h | h | h | h | h <;>
      (subst h; exact ⟨rfl, by simp [allowedSeries], by simp [allowedSeries]⟩)

end Kasp

namespace Kasp

theorem mkPlate_wells_pairwise (name : String) (ws : List Well) :
    (mkPlate name ws).wells.Pairwise
      (fun a b => a.rowcol.data ≤ b.rowcol.data) := by
  have hp := pySorted_pairwise (fun a b : Well => decide (a.rowcol.data < b.rowcol.data))
    (by
      intro a b c hab hbc
      simp only [decide_eq_false_iff_not, not_lt] at hab hbc ⊢
      exact le_trans hbc hab)
    (by
      intro a b hab
      simp only [decide_eq_true_eq] at hab
      simp only [decide_eq_false_iff_not, not_lt]
      exact le_of_lt hab)
    ws
  refine hp.imp ?_
  intro a b hab
  simp only [decide_eq_false_iff_not, not_lt] at hab
  exact hab

theorem mkPlate_wells_perm (name : String) (ws : List Well) :
    (mkPlate name ws).wells.Perm ws :=
  pySorted_perm _ ws

/-- C10: the wells of a constructed `Plate` are a permutation of the wells
given, sorted ascending in the lexicographic order of the rowcol label,
whatever the input order; every plate `make_plate_from_file` returns has
sorted wells; the well-label series of a sorted plate is itself sorted
(the other series enumerate the same wells in the same order by
construction); and a parsed well's label is the row letter field followed
by the zero-padded column number. -/
theorem kasp_plate_wells_sorted (name : String) (ws : List Well)
    (lines : List String) (plate : Plate)
    (hmk : make_plate_from_file lines = .ok plate) :
    (mkPlate name ws).wells.Pairwise
      (fun a b => a.rowcol.data ≤ b.rowcol.data) ∧
    ((mkPlate name ws).wells).Perm ws ∧
    plate.wells.Pairwise (fun a b => a.rowcol.data ≤ b.rowcol.data) ∧
    (∀ p : Plate, p.wells.Pairwise (fun a b => a.rowcol.data ≤ b.rowcol.data) →
      (wellLabels [p]).Pairwise (fun a b => a.data ≤ b.data)) ∧
    (∀ fields w, parseWellFields fields = .ok w →
      ∃ c, pyInt? (fields.getD 1 "") = some c ∧
        w.rowcol = fields.getD 2 "" ++ pad2 c ∧
        w.sample = fields.getD 0 "") := by
  refine ⟨mkPlate_wells_pairwise name ws, mkPlate_wells_perm name ws, ?_, ?_, ?_⟩
  · unfold make_plate_from_file at hmk
    split at hmk
    · exact Except.noConfusion hmk
    · split at hmk
      · exact Except.noConfusion hmk
      · rw [← Except.ok.inj hmk]
        exact mkPlate_wells_pairwise _ _
  · intro p hp
    have h : wellLabels [p] = p.wells.map Well.rowcol := by simp [wellLabels]
    rw [h, List.pairwise_map]
    exact hp
  · intro fields w hp
    unfold parseWellFields at hp
    cases heq2 : fields[2]? with
    | none => rw [heq2] at hp; exact Except.noConfusion hp
    | some f2 =>
    rw [heq2] at hp
    dsimp only at hp
    cases heq1 : fields[1]? with
    | none => rw [heq1] at hp; exact Except.noConfusion hp
    | some f1 =>
    rw [heq1] at hp
    dsimp only at hp
    cases heqc : pyInt? f1 with
    | none => rw [heqc] at hp; exact Except.noConfusion hp
    | some col =>
    rw [heqc] at hp
    dsimp only at hp
    cases heq3 : fields[3]? with
    | none => rw [heq3] at hp; exact Except.noConfusion hp
    | some f3 =>
    rw [heq3] at hp
    dsimp only at hp
    cases heqf : pyInt? f3 with
    | none => rw [heqf] at hp; exact Except.noConfusion hp
    | some famv =>
    rw [heqf] at hp
    dsimp only at hp
    cases heq4 : fields[4]? with
    | none => rw [heq4] at hp; exact Except.noConfusion hp
    | some f4 =>
    rw [heq4] at hp
    dsimp only at hp
    cases heqh : pyInt? f4 with
    | none => rw [heqh] at hp; exact Except.noConfusion hp
    | some hexv =>
    rw [heqh] at hp
    dsimp only at hp
    cases heq5 : fields[5]? with
    | none => rw [heq5] at hp; exact Except.noConfusion hp
    | some f5 =>
    rw [heq5] at hp
    dsimp only at hp
    cases heqr : pyInt? f5 with
    | none => rw [heqr] at hp; exact Except.noConfusion hp
    | some roxv =>
    rw [heqr] at hp
    dsimp only at hp
    have hw := Except.ok.inj hp
    refine ⟨col, ?_, ?_, ?_⟩
    · rw [List.getD_eq_getElem?_getD, heq1]
      exact heqc
    · rw [← hw]
      show f2 ++ pad2 col = fields.getD 2 "" ++ pad2 col
      rw [List.getD_eq_getElem?_getD, heq2]
      rfl
    · rw [← hw]

end Kasp

theorem kasp_plate_wells_sorted_witness :
    Kasp.make_plate_from_file
        ["ID1: plate7,extra", "Content,stuff", "S2,2,A,1,2,5", "S1,1,A,10,20,5"] =
      .ok ⟨"plate7", [⟨"A01", "S1", 10, 20, 5⟩, ⟨"A02", "S2", 1, 2, 5⟩]⟩ ∧
    (Kasp.Plate.mk "plate7"
      [⟨"A01", "S1", 10, 20, 5⟩, ⟨"A02", "S2", 1, 2, 5⟩]).wells.Pairwise
        (fun a b => a.rowcol.data ≤ b.rowcol.data) ∧
    (Kasp.mkPlate "p"
      [⟨"B01", "s1", 1, 2, 3⟩, ⟨"A05", "s2", 4, 5, 6⟩]).wells.Perm
        [⟨"B01", "s1", 1, 2, 3⟩, ⟨"A05", "s2", 4, 5, 6⟩] :=
  ⟨rfl,
   (Kasp.kasp_plate_wells_sorted "p" [⟨"B01", "s1", 1, 2, 3⟩, ⟨"A05", "s2", 4, 5, 6⟩]
     ["ID1: plate7,extra", "Content,stuff", "S2,2,A,1,2,5", "S1,1,A,10,20,5"]
     ⟨"plate7", [⟨"A01", "S1", 10, 20, 5⟩, ⟨"A02", "S2", 1, 2, 5⟩]⟩ rfl).2.2.1,
   (Kasp.kasp_plate_wells_sorted "p" [⟨"B01", "s1", 1, 2, 3⟩, ⟨"A05", "s2", 4, 5, 6⟩]
     ["ID1: plate7,extra", "Content,stuff", "S2,2,A,1,2,5", "S1,1,A,10,20,5"]
     ⟨"plate7", [⟨"A01", "S1", 10, 20, 5⟩, ⟨"A02", "S2", 1, 2, 5⟩]⟩ rfl).2.1⟩
